import Mathlib

/-!
Verification of the shamir repository's envelope secret-sharing core.

The sources under verification are `src/wrapper.rs` (the envelope codec:
`to_shares`, `from_shares`, `create_raw_shares`, the `ShareInfo` and `Share`
records) and `src/main.rs`.  The repository's `src/shamir.rs` module
(`SecretData`: the GF(256) field engine, the secret splitter and the secret
recoverer) is not among the sources, so it is modelled from the
specification; those definitions carry a `Modelled from the spec:` note.
External crates (aes_gcm, sha3, bincode, rand) are not repository code and
are modelled by executable idealizations noted on each definition.

Byte buffers are `List (Fin 256)`; machine integers are `Nat` with explicit
bounds where overflow matters.  Randomness (AEAD key, nonce, polynomial
coefficients) is passed explicitly, following the spec's dependency-injection
design note, so every theorem quantifies over the random draws.
-/

set_option maxHeartbeats 1000000
set_option maxRecDepth 10000

/-! ### GF(2)[x] carry-less arithmetic on bitstring-encoded polynomials

Modelled from the spec: the Field Arithmetic Engine lives in the missing
`src/shamir.rs`.  The spec fixes "the same field used by standard
byte-oriented ciphers", i.e. GF(256) as GF(2)[x] modulo the AES polynomial
x^8+x^4+x^3+x+1 (0x11B).  A byte encodes a polynomial over GF(2) by its
bits; addition is xor and multiplication is carry-less multiplication
followed by reduction. -/

/-- Carry-less (GF(2)[x]) multiplication of bitstring-encoded polynomials,
by recursion on the bits of the first factor.  The first argument is fuel
making the recursion structural; `polyMul` instantiates it. -/
def polyMulAux : Nat → Nat → Nat → Nat
  | 0, _, _ => 0
  | fuel + 1, a, b =>
    if a = 0 then 0
    else (if a % 2 = 1 then b else 0) ^^^ (polyMulAux fuel (a / 2) b) <<< 1

/-- Carry-less multiplication in GF(2)[x]. -/
def polyMul (a b : Nat) : Nat := polyMulAux a a b

theorem polyMulAux_fuel : ∀ f g a b : Nat, a ≤ f → a ≤ g →
    polyMulAux f a b = polyMulAux g a b := by
  intro f
  induction f with
  | zero =>
    intro g a b hf _
    interval_cases a
    cases g <;> simp [polyMulAux]
  | succ f ih =>
    intro g a b hf hg
    match g with
    | 0 =>
      interval_cases a
      simp [polyMulAux]
    | g + 1 =>
      by_cases ha : a = 0
      · simp [polyMulAux, ha]
      · have h2 : a / 2 < a := Nat.div_lt_self (Nat.pos_of_ne_zero ha) (by omega)
        simp only [polyMulAux, ha, if_false]
        rw [ih g (a / 2) b (by omega) (by omega)]

/-- The recursion equation for `polyMul`. -/
theorem polyMul_eq (a b : Nat) :
    polyMul a b = if a = 0 then 0
      else (if a % 2 = 1 then b else 0) ^^^ (polyMul (a / 2) b) <<< 1 := by
  by_cases ha : a = 0
  · simp [polyMul, ha, polyMulAux]
  · match h : a with
    | a' + 1 =>
      simp only [polyMul, polyMulAux, ha, if_false]
      rw [polyMulAux_fuel a' ((a' + 1) / 2) ((a' + 1) / 2) b (by omega) (le_refl _)]

theorem polyMul_zero_left (b : Nat) : polyMul 0 b = 0 := by
  rw [polyMul_eq]; simp

theorem polyMul_zero_right (a : Nat) : polyMul a 0 = 0 := by
  induction a using Nat.strong_induction_on with
  | _ a ih =>
    rw [polyMul_eq]
    by_cases ha : a = 0
    · simp [ha]
    · rw [if_neg ha, ih (a / 2) (Nat.div_lt_self (Nat.pos_of_ne_zero ha) (by omega))]
      simp

theorem polyMul_one_left (b : Nat) : polyMul 1 b = b := by
  rw [polyMul_eq]
  simp [polyMul_zero_left]

/-- Shifting left by one distributes over xor. -/
theorem shiftLeft_xor (x y n : Nat) : (x ^^^ y) <<< n = (x <<< n) ^^^ (y <<< n) := by
  apply Nat.eq_of_testBit_eq
  intro i
  simp only [Nat.testBit_shiftLeft, Nat.testBit_xor]
  by_cases h : i ≥ n <;> simp [h]

/-- Dividing by two distributes over xor. -/
theorem xor_div_two (x y : Nat) : (x ^^^ y) / 2 = x / 2 ^^^ y / 2 := by
  have h : ∀ z : Nat, z / 2 = z >>> 1 := by
    intro z
    simp [Nat.shiftRight_eq_div_pow]
  rw [h, h, h]
  apply Nat.eq_of_testBit_eq
  intro i
  simp

/-- Parity of xor is xor of parities. -/
theorem xor_mod_two (x y : Nat) : (x ^^^ y) % 2 = (x % 2) ^^^ (y % 2) := by
  rw [Nat.xor_mod_two_eq]
  rcases Nat.mod_two_eq_zero_or_one x with hx | hx <;>
    rcases Nat.mod_two_eq_zero_or_one y with hy | hy <;>
    rw [hx, hy] <;>
    simp only [Nat.zero_xor, Nat.xor_zero, Nat.xor_self] <;>
    omega

theorem xor_left_comm (a b c : Nat) : a ^^^ (b ^^^ c) = b ^^^ (a ^^^ c) := by
  rw [← Nat.xor_assoc, Nat.xor_comm a b, Nat.xor_assoc]

theorem shiftLeft_one (x : Nat) : x <<< 1 = 2 * x := by
  rw [Nat.shiftLeft_eq]
  ring

theorem two_mul_xor_one (d : Nat) : (2 * d) ^^^ 1 = 2 * d + 1 := by
  apply Nat.eq_of_testBit_eq
  intro i
  match i with
  | 0 =>
    simp only [Nat.testBit_xor, Nat.testBit_zero]
    have h1 : 2 * d % 2 = 0 := by omega
    have h2 : (2 * d + 1) % 2 = 1 := by omega
    simp [h1, h2]
  | i + 1 =>
    rw [Nat.testBit_succ, Nat.testBit_succ, xor_div_two]
    have h1 : 2 * d / 2 = d := by omega
    have h2 : (2 * d + 1) / 2 = d := by omega
    have h3 : (1 : Nat) / 2 = 0 := by norm_num
    rw [h1, h2, h3, Nat.xor_zero]

theorem two_mul_xor (x y : Nat) : (2 * x) ^^^ (2 * y) = 2 * (x ^^^ y) := by
  apply Nat.eq_of_testBit_eq
  intro i
  match i with
  | 0 =>
    simp only [Nat.testBit_xor, Nat.testBit_zero]
    have h1 : 2 * x % 2 = 0 := by omega
    have h2 : 2 * y % 2 = 0 := by omega
    have h3 : 2 * (x ^^^ y) % 2 = 0 := by omega
    simp [h1, h2, h3]
  | i + 1 =>
    rw [Nat.testBit_succ, Nat.testBit_succ, xor_div_two]
    have h1 : 2 * x / 2 = x := by omega
    have h2 : 2 * y / 2 = y := by omega
    have h3 : 2 * (x ^^^ y) / 2 = x ^^^ y := by omega
    rw [h1, h2, h3]

/-- Binary decomposition of a natural number as an xor of disjoint parts. -/
theorem bit_decomp (b : Nat) : (2 * (b / 2)) ^^^ (b % 2) = b := by
  rcases Nat.mod_two_eq_zero_or_one b with h | h <;> rw [h]
  · rw [Nat.xor_zero]; omega
  · rw [two_mul_xor_one]; omega

/-- The product `polyMul` is linear over xor in its second argument. -/
theorem polyMul_linear_right (a x y : Nat) :
    polyMul a (x ^^^ y) = polyMul a x ^^^ polyMul a y := by
  induction a using Nat.strong_induction_on with
  | _ a ih =>
    by_cases ha : a = 0
    · simp [ha, polyMul_zero_left]
    · rw [polyMul_eq a (x ^^^ y), polyMul_eq a x, polyMul_eq a y, if_neg ha, if_neg ha,
        if_neg ha, ih (a / 2) (Nat.div_lt_self (Nat.pos_of_ne_zero ha) (by omega)),
        shiftLeft_xor]
      by_cases hp : a % 2 = 1
      · rw [if_pos hp, if_pos hp, if_pos hp]
        rw [Nat.xor_assoc, Nat.xor_assoc]
        congr 1
        rw [xor_left_comm]
      · simp only [if_neg hp, Nat.zero_xor]

/-- Multiplying a doubled polynomial shifts the product. -/
theorem polyMul_two_mul_left (x c : Nat) : polyMul (2 * x) c = 2 * polyMul x c := by
  by_cases hx : x = 0
  · simp [hx, polyMul_zero_left]
  · have hne : ¬(2 * x = 0) := by omega
    have hmod : ¬(2 * x % 2 = 1) := by omega
    have hdiv : 2 * x / 2 = x := by omega
    rw [polyMul_eq (2 * x) c, if_neg hne, if_neg hmod, hdiv, Nat.zero_xor, shiftLeft_one]

theorem polyMul_one_right (a : Nat) : polyMul a 1 = a := by
  induction a using Nat.strong_induction_on with
  | _ a ih =>
    by_cases ha : a = 0
    · simp [ha, polyMul_zero_left]
    · rw [polyMul_eq, if_neg ha, ih (a / 2) (Nat.div_lt_self (Nat.pos_of_ne_zero ha) (by omega)),
        shiftLeft_one]
      rcases Nat.mod_two_eq_zero_or_one a with h | h
      · have hcond : ¬(a % 2 = 1) := by omega
        rw [if_neg hcond, Nat.zero_xor]
        omega
      · rw [if_pos h, Nat.xor_comm, two_mul_xor_one]
        omega

/-- The product `polyMul` doubles along with its second argument. -/
theorem polyMul_two_mul_right (a c : Nat) : polyMul a (2 * c) = 2 * polyMul a c := by
  induction a using Nat.strong_induction_on with
  | _ a ih =>
    by_cases ha : a = 0
    · simp [ha, polyMul_zero_left]
    · rw [polyMul_eq a (2 * c), polyMul_eq a c, if_neg ha, if_neg ha,
        ih (a / 2) (Nat.div_lt_self (Nat.pos_of_ne_zero ha) (by omega)),
        shiftLeft_one, shiftLeft_one]
      rw [← two_mul_xor]
      congr 1
      by_cases hp : a % 2 = 1
      · rw [if_pos hp, if_pos hp]
      · rw [if_neg hp, if_neg hp]

theorem polyMul_comm (a b : Nat) : polyMul a b = polyMul b a := by
  induction b using Nat.strong_induction_on generalizing a with
  | _ b ih =>
    by_cases hb : b = 0
    · rw [hb, polyMul_zero_right, polyMul_zero_left]
    · have hlt : b / 2 < b := Nat.div_lt_self (Nat.pos_of_ne_zero hb) (by omega)
      conv_lhs => rw [← bit_decomp b]
      rw [polyMul_linear_right, polyMul_two_mul_right,
        polyMul_eq b a, if_neg hb, shiftLeft_one, ih (b / 2) hlt a]
      rcases Nat.mod_two_eq_zero_or_one b with h | h
      · rw [h, polyMul_zero_right, if_neg (by omega), Nat.xor_zero, Nat.zero_xor]
      · rw [h, polyMul_one_right, if_pos rfl, Nat.xor_comm]

/-- The product `polyMul` is linear over xor in its first argument. -/
theorem polyMul_linear_left (x y b : Nat) :
    polyMul (x ^^^ y) b = polyMul x b ^^^ polyMul y b := by
  rw [polyMul_comm (x ^^^ y) b, polyMul_linear_right, polyMul_comm b x, polyMul_comm b y]

theorem polyMul_assoc (a b c : Nat) :
    polyMul (polyMul a b) c = polyMul a (polyMul b c) := by
  induction a using Nat.strong_induction_on with
  | _ a ih =>
    by_cases ha : a = 0
    · rw [ha, polyMul_zero_left, polyMul_zero_left, polyMul_zero_left]
    · have hlt : a / 2 < a := Nat.div_lt_self (Nat.pos_of_ne_zero ha) (by omega)
      rw [polyMul_eq a b, if_neg ha, shiftLeft_one]
      rw [polyMul_linear_left, polyMul_two_mul_left, ih (a / 2) hlt]
      rw [polyMul_eq a (polyMul b c), if_neg ha, shiftLeft_one]
      congr 1
      by_cases hp : a % 2 = 1
      · rw [if_pos hp, if_pos hp]
      · rw [if_neg hp, if_neg hp, polyMul_zero_left]

/-- Degree bound: the carry-less product of bitstrings below `2^s` and `2^t`
stays below `2^(s+t)`. -/
theorem polyMul_lt {a b : Nat} (s t : Nat) (hs : a < 2 ^ s) (ht : b < 2 ^ t) :
    polyMul a b < 2 ^ (s + t) := by
  induction a using Nat.strong_induction_on generalizing s with
  | _ a ih =>
    by_cases ha : a = 0
    · rw [ha, polyMul_zero_left]
      positivity
    · match s with
      | 0 =>
        exfalso
        have h1 : a < 1 := by simpa using hs
        omega
      | s + 1 =>
        have hlt : a / 2 < a := Nat.div_lt_self (Nat.pos_of_ne_zero ha) (by omega)
        rw [polyMul_eq a b, if_neg ha, shiftLeft_one]
        apply Nat.xor_lt_two_pow
        · have h1 : (if a % 2 = 1 then b else 0) ≤ b := by split <;> omega
          have h2 : (2 : Nat) ^ t ≤ 2 ^ (s + 1 + t) :=
            Nat.pow_le_pow_right (by omega) (by omega)
          omega
        · have hdiv : a / 2 < 2 ^ s := by
            have h2 : (2 : Nat) ^ (s + 1) = 2 * 2 ^ s := by
              rw [pow_succ]
              ring
            omega
          have h3 := ih (a / 2) hlt s hdiv
          have h4 : (2 : Nat) ^ (s + 1 + t) = 2 * 2 ^ (s + t) := by
            rw [show s + 1 + t = (s + t) + 1 by omega, pow_succ]
            ring
          omega

/-- Exclusive-or with a value below `2^n` cannot drop below `2^n`. -/
theorem xor_ge {x y n : Nat} (hx : 2 ^ n ≤ x) (hy : y < 2 ^ n) : 2 ^ n ≤ x ^^^ y := by
  by_contra h
  push_neg at h
  have h2 : x < 2 ^ n := by
    have hxx : x = (x ^^^ y) ^^^ y := by rw [Nat.xor_assoc, Nat.xor_self, Nat.xor_zero]
    rw [hxx]
    exact Nat.xor_lt_two_pow h hy
  omega

/-- Multiplying a nonzero polynomial by one of degree exactly `n` keeps the
product at or above `2^n`. -/
theorem polyMul_ge (b n : Nat) (hb1 : 2 ^ n ≤ b) (hb2 : b < 2 ^ (n + 1)) :
    ∀ s : Nat, s ≠ 0 → 2 ^ n ≤ polyMul s b := by
  intro s
  induction s using Nat.strong_induction_on with
  | _ s ih =>
    intro hs
    rw [polyMul_eq s b, if_neg hs, shiftLeft_one]
    by_cases h2 : s / 2 = 0
    · have hm : s % 2 = 1 := by omega
      rw [if_pos hm, h2, polyMul_zero_left]
      simpa using hb1
    · have hlt : s / 2 < s := Nat.div_lt_self (Nat.pos_of_ne_zero hs) (by omega)
      have hge := ih (s / 2) hlt h2
      have hps : (2 : Nat) ^ (n + 1) = 2 * 2 ^ n := by
        rw [pow_succ]
        ring
      have hge2 : 2 ^ (n + 1) ≤ 2 * polyMul (s / 2) b := by omega
      have hcond : (if s % 2 = 1 then b else 0) < 2 ^ (n + 1) := by
        split
        · exact hb2
        · positivity
      have h3 := xor_ge hge2 hcond
      have hpow : (2 : Nat) ^ n ≤ 2 ^ (n + 1) := Nat.pow_le_pow_right (by omega) (by omega)
      rw [Nat.xor_comm]
      omega

/-- One sweep of GF(2)[x] reduction modulo the AES polynomial 0x11B: the
step at fuel `k+1` clears bit `k+8` by subtracting (xoring) the shifted
modulus, then continues downward. -/
def red : Nat → Nat → Nat
  | 0, x => x
  | k + 1, x => red k (if x.testBit (k + 8) then x ^^^ (0x11B <<< k) else x)

/-- Reduction modulo the AES polynomial, adequate for inputs below 2^32. -/
def polyMod (x : Nat) : Nat := red 24 x

/-- GF(256) multiplication: carry-less multiply then reduce mod 0x11B. -/
def gmul (a b : Nat) : Nat := polyMod (polyMul a b)

theorem redStep_lt {k x : Nat} (hx : x < 2 ^ (k + 9)) :
    (if x.testBit (k + 8) then x ^^^ (0x11B <<< k) else x) < 2 ^ (k + 8) := by
  split
  case isTrue h =>
    apply Nat.lt_pow_two_of_testBit
    intro i hi
    rcases Nat.eq_or_lt_of_le hi with heq | hgt
    · rw [← heq, Nat.testBit_xor, h, Nat.testBit_shiftLeft]
      have h8 : (0x11B : Nat).testBit 8 = true := by decide
      have hk : k + 8 - k = 8 := by omega
      simp [hk, h8]
    · have h1 : x.testBit i = false :=
        Nat.testBit_lt_two_pow (lt_of_lt_of_le hx (Nat.pow_le_pow_right (by omega) (by omega)))
      have h2 : (0x11B <<< k).testBit i = false := by
        rw [Nat.testBit_shiftLeft]
        have h3 : (0x11B : Nat).testBit (i - k) = false := by
          apply Nat.testBit_lt_two_pow
          calc (0x11B : Nat) < 2 ^ 9 := by norm_num
          _ ≤ 2 ^ (i - k) := Nat.pow_le_pow_right (by omega) (by omega)
        simp [h3]
      rw [Nat.testBit_xor, h1, h2]
      rfl
  case isFalse h =>
    apply Nat.lt_pow_two_of_testBit
    intro i hi
    rcases Nat.eq_or_lt_of_le hi with heq | hgt
    · rw [← heq]
      simpa using h
    · exact Nat.testBit_lt_two_pow (lt_of_lt_of_le hx (Nat.pow_le_pow_right (by omega) (by omega)))

theorem red_lt : ∀ k x : Nat, x < 2 ^ (k + 8) → red k x < 2 ^ 8 := by
  intro k
  induction k with
  | zero =>
    intro x h
    simpa using h
  | succ k ih =>
    intro x h
    have h9 : x < 2 ^ (k + 9) := by
      have : k + 1 + 8 = k + 9 := by omega
      rwa [this] at h
    exact ih _ (redStep_lt h9)

theorem redStep_xor (k x y : Nat) :
    (if (x ^^^ y).testBit (k + 8) then (x ^^^ y) ^^^ (0x11B <<< k) else (x ^^^ y)) =
      (if x.testBit (k + 8) then x ^^^ (0x11B <<< k) else x) ^^^
        (if y.testBit (k + 8) then y ^^^ (0x11B <<< k) else y) := by
  have hb : (x ^^^ y).testBit (k + 8) = ((x.testBit (k + 8)) ^^ (y.testBit (k + 8))) :=
    Nat.testBit_xor x y (k + 8)
  cases hx : x.testBit (k + 8) <;> cases hy : y.testBit (k + 8) <;>
    rw [hb, hx, hy] <;>
    simp only [Bool.xor_false, Bool.xor_true, Bool.false_xor, Bool.true_xor, Bool.not_true,
      Bool.not_false, if_true, if_false, ite_true, ite_false] <;>
    simp [Nat.xor_assoc, Nat.xor_comm, xor_left_comm]

theorem red_linear : ∀ k x y : Nat, red k (x ^^^ y) = red k x ^^^ red k y := by
  intro k
  induction k with
  | zero => intro x y; rfl
  | succ k ih =>
    intro x y
    show red k _ = red k _ ^^^ red k _
    rw [redStep_xor k x y, ih]

theorem polyMod_linear (x y : Nat) : polyMod (x ^^^ y) = polyMod x ^^^ polyMod y :=
  red_linear 24 x y

theorem red_of_lt : ∀ k, ∀ {x : Nat}, x < 2 ^ 8 → red k x = x := by
  intro k
  induction k with
  | zero => intro x _; rfl
  | succ k ih =>
    intro x h
    have hbit : x.testBit (k + 8) = false :=
      Nat.testBit_lt_two_pow (lt_of_lt_of_le h (Nat.pow_le_pow_right (by omega) (by omega)))
    show red k (if x.testBit (k + 8) then _ else _) = x
    rw [hbit]
    simpa using ih h

theorem polyMod_small {x : Nat} (h : x < 2 ^ 8) : polyMod x = x := red_of_lt 24 h

theorem polyMod_lt {x : Nat} (h : x < 2 ^ 32) : polyMod x < 2 ^ 8 :=
  red_lt 24 x (by simpa using h)

theorem polyMul_pow2 : ∀ k m : Nat, polyMul (2 ^ k) m = m <<< k := by
  intro k
  induction k with
  | zero =>
    intro m
    simpa [Nat.shiftLeft_zero] using polyMul_one_left m
  | succ k ih =>
    intro m
    have h1 : (2 : Nat) ^ (k + 1) = 2 * 2 ^ k := by
      rw [pow_succ]
      ring
    rw [h1, polyMul_two_mul_left, ih, Nat.shiftLeft_eq, Nat.shiftLeft_eq, pow_succ]
    ring

/-- Every reduction sweep differs from its input by a multiple of 0x11B. -/
theorem red_exists_mul : ∀ k x : Nat, ∃ q, red k x = x ^^^ polyMul q 0x11B := by
  intro k
  induction k with
  | zero =>
    intro x
    exact ⟨0, by rw [polyMul_zero_left, Nat.xor_zero]; rfl⟩
  | succ k ih =>
    intro x
    show ∃ q, red k (if x.testBit (k + 8) then x ^^^ (0x11B <<< k) else x) = _
    by_cases h : x.testBit (k + 8) = true
    · rw [h]
      obtain ⟨q, hq⟩ := ih (x ^^^ 0x11B <<< k)
      refine ⟨2 ^ k ^^^ q, ?_⟩
      simp only [ite_true]
      rw [hq, polyMul_linear_left, polyMul_pow2, Nat.xor_assoc]
    · rw [Bool.not_eq_true] at h
      rw [h]
      simpa using ih x

theorem polyMod_exists_mul (x : Nat) : ∃ q, polyMod x = x ^^^ polyMul q 0x11B :=
  red_exists_mul 24 x

theorem xor_cancel {a b : Nat} (h : a ^^^ b = 0) : a = b := by
  have h2 : a ^^^ b ^^^ b = b := by rw [h, Nat.zero_xor]
  rwa [Nat.xor_assoc, Nat.xor_self, Nat.xor_zero] at h2

theorem xor_self_cancel (a b : Nat) : a ^^^ (a ^^^ b) = b := by
  rw [← Nat.xor_assoc, Nat.xor_self, Nat.zero_xor]

/-- Uniqueness of the reduced representative: if `x` differs from `r < 2^8`
by a multiple of 0x11B, then `polyMod x = r`. -/
theorem polyMod_unique {x r q : Nat} (hx : x < 2 ^ 32) (hr : r < 2 ^ 8)
    (h : x = polyMul q 0x11B ^^^ r) : polyMod x = r := by
  obtain ⟨q2, hq2⟩ := polyMod_exists_mul x
  have hd : polyMod x ^^^ r = polyMul (q ^^^ q2) 0x11B := by
    rw [hq2, h, polyMul_linear_left]
    simp [Nat.xor_assoc, Nat.xor_comm, xor_left_comm, xor_self_cancel]
  have hdlt : polyMod x ^^^ r < 2 ^ 8 := Nat.xor_lt_two_pow (polyMod_lt hx) hr
  by_cases hq : q ^^^ q2 = 0
  · rw [hq, polyMul_zero_left] at hd
    exact xor_cancel hd
  · exfalso
    have hge := polyMul_ge 0x11B 8 (by norm_num) (by norm_num) (q ^^^ q2) hq
    rw [← hd] at hge
    omega

/-- Multiples of the modulus reduce to zero. -/
theorem polyMod_mul_modulus {s : Nat} (h : polyMul s 0x11B < 2 ^ 32) :
    polyMod (polyMul s 0x11B) = 0 :=
  polyMod_unique h (by norm_num) (by rw [Nat.xor_zero])

/-- Reducing before multiplying does not change the reduced product. -/
theorem polyMod_mul_compat {u c : Nat} (hu : u < 2 ^ 24) (hc : c < 2 ^ 8) :
    polyMod (polyMul (polyMod u) c) = polyMod (polyMul u c) := by
  obtain ⟨q, hq⟩ := polyMod_exists_mul u
  have hmodlt : polyMod u < 2 ^ 8 := polyMod_lt (lt_trans hu (by norm_num))
  have h1 : polyMul (polyMod u) c = polyMul u c ^^^ polyMul (polyMul q c) 0x11B := by
    rw [hq, polyMul_linear_left]
    congr 1
    rw [polyMul_assoc, polyMul_comm 0x11B c, ← polyMul_assoc]
  have h2 : polyMul (polyMul q c) 0x11B < 2 ^ 32 := by
    have h3 : polyMul (polyMul q c) 0x11B = polyMul u c ^^^ polyMul (polyMod u) c := by
      rw [h1, xor_self_cancel]
    rw [h3]
    have h5 : polyMul u c < 2 ^ 32 := polyMul_lt 24 8 hu hc
    have h6 : polyMul (polyMod u) c < 2 ^ 16 := polyMul_lt 8 8 hmodlt hc
    exact Nat.xor_lt_two_pow h5 (lt_trans h6 (by norm_num))
  rw [h1, polyMod_linear, polyMod_mul_modulus h2, Nat.xor_zero]

theorem gmul_lt {a b : Nat} (ha : a < 2 ^ 8) (hb : b < 2 ^ 8) : gmul a b < 2 ^ 8 :=
  polyMod_lt (lt_trans (polyMul_lt 8 8 ha hb) (by norm_num))

theorem gmul_comm (a b : Nat) : gmul a b = gmul b a := by
  rw [gmul, gmul, polyMul_comm]

theorem gmul_zero_left (b : Nat) : gmul 0 b = 0 := by
  rw [gmul, polyMul_zero_left]
  exact polyMod_small (by norm_num)

theorem gmul_zero_right (a : Nat) : gmul a 0 = 0 := by
  rw [gmul_comm]
  exact gmul_zero_left a

theorem gmul_one_right {a : Nat} (ha : a < 2 ^ 8) : gmul a 1 = a := by
  rw [gmul, polyMul_one_right]
  exact polyMod_small ha

theorem gmul_one_left {a : Nat} (ha : a < 2 ^ 8) : gmul 1 a = a := by
  rw [gmul_comm]
  exact gmul_one_right ha

theorem gmul_linear_right (a b c : Nat) : gmul a (b ^^^ c) = gmul a b ^^^ gmul a c := by
  rw [gmul, gmul, gmul, polyMul_linear_right, polyMod_linear]

theorem gmul_assoc {a b c : Nat} (ha : a < 2 ^ 8) (hb : b < 2 ^ 8) (hc : c < 2 ^ 8) :
    gmul (gmul a b) c = gmul a (gmul b c) := by
  have h1 : polyMul a b < 2 ^ 16 := polyMul_lt 8 8 ha hb
  have h2 : polyMul b c < 2 ^ 16 := polyMul_lt 8 8 hb hc
  rw [gmul, gmul, gmul, gmul]
  rw [polyMod_mul_compat (lt_trans h1 (by norm_num)) hc]
  rw [polyMul_comm a (polyMod (polyMul b c)),
    polyMod_mul_compat (lt_trans h2 (by norm_num)) ha,
    polyMul_comm (polyMul b c) a, polyMul_assoc]

theorem xor_lt_256 {a b : Nat} (ha : a < 256) (hb : b < 256) : a ^^^ b < 256 := by
  have ha8 : a < 2 ^ 8 := ha
  have hb8 : b < 2 ^ 8 := hb
  exact Nat.xor_lt_two_pow ha8 hb8

theorem gmul_lt_256 {a b : Nat} (ha : a < 256) (hb : b < 256) : gmul a b < 256 := by
  have ha8 : a < 2 ^ 8 := ha
  have hb8 : b < 2 ^ 8 := hb
  exact gmul_lt ha8 hb8

/-- Modelled from the spec: multiplicative-inverse table for GF(256) over the
AES polynomial, standing in for the antilog/log tables of the missing field
engine; entry `a-1` is the inverse of `a`.  Verified below by `ginv_check`. -/
def invTable : List Nat := [1, 141, 246, 203, 82, 123, 209, 232, 79, 41, 192, 176, 225, 229,
  199, 116, 180, 170, 75, 153, 43, 96, 95, 88, 63, 253, 204, 255, 64, 238, 178, 58, 110, 90,
  241, 85, 77, 168, 201, 193, 10, 152, 21, 48, 68, 162, 194, 44, 69, 146, 108, 243, 57, 102,
  66, 242, 53, 32, 111, 119, 187, 89, 25, 29, 254, 55, 103, 45, 49, 245, 105, 167, 100, 171,
  19, 84, 37, 233, 9, 237, 92, 5, 202, 76, 36, 135, 191, 24, 62, 34, 240, 81, 236, 97, 23,
  22, 94, 175, 211, 73, 166, 54, 67, 244, 71, 145, 223, 51, 147, 33, 59, 121, 183, 151, 133,
  16, 181, 186, 60, 182, 112, 208, 6, 161, 250, 129, 130, 131, 126, 127, 128, 150, 115, 190,
  86, 155, 158, 149, 217, 247, 2, 185, 164, 222, 106, 50, 109, 216, 138, 132, 114, 42, 20,
  159, 136, 249, 220, 137, 154, 251, 124, 46, 195, 143, 184, 101, 72, 38, 200, 18, 74, 206,
  231, 210, 98, 12, 224, 31, 239, 17, 117, 120, 113, 165, 142, 118, 61, 189, 188, 134, 87,
  11, 40, 47, 163, 218, 212, 228, 15, 169, 39, 83, 4, 27, 252, 172, 230, 122, 7, 174, 99,
  197, 219, 226, 234, 148, 139, 196, 213, 157, 248, 144, 107, 177, 13, 214, 235, 198, 14,
  207, 173, 8, 78, 215, 227, 93, 80, 30, 179, 91, 35, 56, 52, 104, 70, 3, 140, 221, 156,
  125, 160, 205, 26, 65, 28]

/-- GF(256) multiplicative inverse (with the conventional value 0 at 0). -/
def ginv (a : Nat) : Nat := if a = 0 then 0 else invTable.getD (a - 1) 0

theorem ginv_lt_check : ∀ a ∈ List.range 256, ginv a < 256 := by decide

theorem gmul_ginv_check : ∀ a ∈ List.range 256, a ≠ 0 → gmul a (ginv a) = 1 := by decide

theorem ginv_lt_256 {a : Nat} (ha : a < 256) : ginv a < 256 :=
  ginv_lt_check a (List.mem_range.mpr ha)

theorem gmul_ginv {a : Nat} (ha : a < 256) (h0 : a ≠ 0) : gmul a (ginv a) = 1 :=
  gmul_ginv_check a (List.mem_range.mpr ha) h0

/-- Modelled from the spec: the GF(256) field element type of the missing
field engine, a byte with xor addition and AES-polynomial multiplication. -/
structure GF where
  val : Fin 256
  deriving DecidableEq

theorem GF.ext_val {a b : GF} (h : a.val.val = b.val.val) : a = b := by
  cases a
  cases b
  simp only [GF.mk.injEq]
  exact Fin.ext h

instance : Zero GF := ⟨⟨⟨0, by norm_num⟩⟩⟩

instance : One GF := ⟨⟨⟨1, by norm_num⟩⟩⟩

instance : Add GF := ⟨fun a b => ⟨⟨a.val.val ^^^ b.val.val, xor_lt_256 a.val.isLt b.val.isLt⟩⟩⟩

instance : Mul GF := ⟨fun a b => ⟨⟨gmul a.val.val b.val.val, gmul_lt_256 a.val.isLt b.val.isLt⟩⟩⟩

instance : Neg GF := ⟨fun a => a⟩

instance : Inv GF := ⟨fun a => ⟨⟨ginv a.val.val, ginv_lt_256 a.val.isLt⟩⟩⟩

theorem GF.val_add (a b : GF) : (a + b).val.val = a.val.val ^^^ b.val.val := rfl

theorem GF.val_mul (a b : GF) : (a * b).val.val = gmul a.val.val b.val.val := rfl

theorem GF.val_neg (a : GF) : (-a).val.val = a.val.val := rfl

theorem GF.val_inv (a : GF) : (a⁻¹).val.val = ginv a.val.val := rfl

theorem GF.val_zero : (0 : GF).val.val = 0 := rfl

theorem GF.val_one : (1 : GF).val.val = 1 := rfl

instance : CommRing GF where
  add_assoc a b c := GF.ext_val (by simp [GF.val_add, Nat.xor_assoc])
  zero_add a := GF.ext_val (by simp [GF.val_add, GF.val_zero])
  add_zero a := GF.ext_val (by simp [GF.val_add, GF.val_zero])
  add_comm a b := GF.ext_val (by simp [GF.val_add, Nat.xor_comm])
  nsmul := nsmulRec
  zsmul := zsmulRec
  mul_assoc a b c := GF.ext_val (by
    simp only [GF.val_mul]
    exact gmul_assoc a.val.isLt b.val.isLt c.val.isLt)
  one_mul a := GF.ext_val (by
    simp only [GF.val_mul, GF.val_one]
    exact gmul_one_left a.val.isLt)
  mul_one a := GF.ext_val (by
    simp only [GF.val_mul, GF.val_one]
    exact gmul_one_right a.val.isLt)
  left_distrib a b c := GF.ext_val (by
    simp only [GF.val_mul, GF.val_add]
    exact gmul_linear_right _ _ _)
  right_distrib a b c := GF.ext_val (by
    simp only [GF.val_mul, GF.val_add]
    rw [gmul_comm (_ ^^^ _) c.val.val, gmul_linear_right, gmul_comm c.val.val,
      gmul_comm c.val.val])
  zero_mul a := GF.ext_val (by simp [GF.val_mul, GF.val_zero, gmul_zero_left])
  mul_zero a := GF.ext_val (by simp [GF.val_mul, GF.val_zero, gmul_zero_right])
  neg_add_cancel a := GF.ext_val (by simp [GF.val_add, GF.val_neg, GF.val_zero])
  mul_comm a b := GF.ext_val (by simp only [GF.val_mul]; rw [gmul_comm])

instance : Field GF where
  __ := (inferInstance : CommRing GF)
  exists_pair_ne := ⟨0, 1, fun h => by
    have h2 := congrArg (fun g : GF => g.val.val) h
    simp only [GF.val_zero, GF.val_one] at h2
    omega⟩
  mul_inv_cancel a h := GF.ext_val (by
    simp only [GF.val_mul, GF.val_inv, GF.val_one]
    apply gmul_ginv a.val.isLt
    intro hv
    exact h (GF.ext_val (by rw [hv, GF.val_zero])))
  inv_zero := GF.ext_val (by simp only [GF.val_inv, GF.val_zero]; rfl)
  nnqsmul := _
  nnqsmul_def := fun _ _ => rfl
  qsmul := _
  qsmul_def := fun _ _ => rfl

/-- Modelled from the spec: Horner evaluation of a polynomial given by its
coefficient list (constant term first), as used by the missing splitter. -/
def hornerEval (cs : List GF) (x : GF) : GF := cs.foldr (fun c acc => acc * x + c) 0

/-- Bridge: the abstract polynomial with the given coefficient list (pure
proof machinery, not part of the embedded program). -/
noncomputable def toPoly (cs : List GF) : Polynomial GF :=
  cs.foldr (fun c p => Polynomial.C c + Polynomial.X * p) 0

theorem toPoly_eval (cs : List GF) (x : GF) : (toPoly cs).eval x = hornerEval cs x := by
  induction cs with
  | nil => simp [toPoly, hornerEval]
  | cons c cs ih =>
    simp only [toPoly, hornerEval, List.foldr] at ih ⊢
    rw [Polynomial.eval_add, Polynomial.eval_C, Polynomial.eval_mul, Polynomial.eval_X, ih]
    ring

theorem hornerEval_zero (cs : List GF) : hornerEval cs 0 = cs.headD 0 := by
  cases cs with
  | nil => rfl
  | cons c cs => simp [hornerEval]

theorem toPoly_degree_lt (cs : List GF) : (toPoly cs).degree < (cs.length : WithBot ℕ) := by
  induction cs with
  | nil =>
    simp only [toPoly, List.foldr, List.length_nil, Nat.cast_zero]
    rw [Polynomial.degree_zero]
    exact WithBot.bot_lt_coe 0
  | cons c cs ih =>
    simp only [toPoly, List.foldr, List.length_cons] at ih ⊢
    apply lt_of_le_of_lt (Polynomial.degree_add_le _ _)
    rw [max_lt_iff]
    constructor
    · apply lt_of_le_of_lt Polynomial.degree_C_le
      exact_mod_cast Nat.succ_pos cs.length
    · by_cases hp : cs.foldr (fun c p => Polynomial.C c + Polynomial.X * p) 0 = 0
      · rw [hp, mul_zero, Polynomial.degree_zero]
        exact WithBot.bot_lt_coe _
      · rw [Polynomial.degree_mul, Polynomial.degree_X]
        have hcast : ((cs.length + 1 : ℕ) : WithBot ℕ) = 1 + (cs.length : WithBot ℕ) := by
          push_cast
          ring
        rw [hcast]
        exact WithBot.add_lt_add_left (by simp) ih

/-- Modelled from the spec: Lagrange recovery of the secret byte, evaluating
the interpolating polynomial at x = 0 via
secret = Σᵢ yᵢ · Πⱼ≠ᵢ (0 − xⱼ) / (xᵢ − xⱼ), all arithmetic in GF(256). -/
def recByte (pts : List (GF × GF)) : GF :=
  ∑ i : Fin pts.length,
    (pts.get i).2 *
      ∏ j ∈ Finset.univ.erase i, (0 - (pts.get j).1) / ((pts.get i).1 - (pts.get j).1)

theorem recByte_def (pts : List (GF × GF)) :
    recByte pts = ∑ i : Fin pts.length,
      (pts.get i).2 *
        ∏ j ∈ Finset.univ.erase i, (0 - (pts.get j).1) / ((pts.get i).1 - (pts.get j).1) :=
  rfl

/-- Exactness of the spec's Lagrange recovery formula: on any family of
evaluations of a polynomial with fewer coefficients than points, at pairwise
distinct nodes, the recovery formula returns the polynomial's constant term. -/
theorem recByte_eq_headD (coeffs : List GF) (pts : List (GF × GF))
    (hlen : coeffs.length ≤ pts.length)
    (hx : ∀ i j : Fin pts.length, i ≠ j → (pts.get i).1 ≠ (pts.get j).1)
    (hy : ∀ i : Fin pts.length, (pts.get i).2 = hornerEval coeffs (pts.get i).1) :
    recByte pts = coeffs.headD 0 := by
  have hinj : Function.Injective (fun i : Fin pts.length => (pts.get i).1) := by
    intro i j hij
    by_contra hne
    exact hx i j hne hij
  have hdeg : (toPoly coeffs).degree <
      (Finset.univ : Finset (Fin pts.length)).card := by
    rw [Finset.card_univ, Fintype.card_fin]
    exact lt_of_lt_of_le (toPoly_degree_lt coeffs) (by exact_mod_cast hlen)
  have heq := Lagrange.eq_interpolate hinj.injOn hdeg
  have hr : (fun i : Fin pts.length =>
      Polynomial.eval ((fun i : Fin pts.length => (pts.get i).1) i) (toPoly coeffs)) =
      fun i : Fin pts.length => (pts.get i).2 := by
    funext i
    rw [toPoly_eval]
    exact (hy i).symm
  have h0 := congrArg (Polynomial.eval (0 : GF)) heq
  rw [hr] at h0
  rw [toPoly_eval, hornerEval_zero] at h0
  rw [Lagrange.interpolate_apply, Polynomial.eval_finset_sum] at h0
  rw [recByte_def, h0]
  apply Finset.sum_congr rfl
  intro i _
  rw [Polynomial.eval_mul, Polynomial.eval_C]
  congr 1
  simp only [Lagrange.basis]
  rw [Polynomial.eval_prod]
  apply Finset.prod_congr rfl
  intro j _
  simp only [Lagrange.basisDivisor]
  rw [Polynomial.eval_mul, Polynomial.eval_C, Polynomial.eval_sub, Polynomial.eval_X,
    Polynomial.eval_C]
  rw [div_eq_mul_inv, mul_comm]

/-! ### Byte buffers, error taxonomy, and external-crate models -/

/-- A byte, the element of all buffers (`Vec<u8>` in the source). -/
abbrev Byte := Fin 256

/-- The error taxonomy of spec section 7, as a closed tagged-variant type.
The source uses `anyhow` string errors; the tags here name the conditions
the spec assigns to each failure site. -/
inductive Err where
  | InvalidParameters
  | DivisionByZero
  | DuplicateIndex
  | LengthMismatch
  | ShareMismatch
  | DecryptionFailed
  | IntegrityCheckFailed
  | DeserializationFailed
  deriving DecidableEq

/-- Byte construction with u8 wraparound semantics. -/
def mkByte (n : Nat) : Byte := ⟨n % 256, Nat.mod_lt n (by norm_num)⟩

/-- View a byte as a GF(256) field element. -/
def GF.ofByte (b : Byte) : GF := ⟨b⟩

/-- The `for … { let x = f(_)?; acc.push(x) }` loop pattern of the source:
map a fallible function over a list, stopping at the first error. -/
def mapExcept {α β : Type} (f : α → Except Err β) : List α → Except Err (List β)
  | [] => Except.ok []
  | a :: l => do
    let b ← f a
    let bs ← mapExcept f l
    Except.ok (b :: bs)

/-! ### The secret-sharing engine

Modelled from the spec: `src/shamir.rs` (struct `SecretData` with
`with_secret`, `get_share`, `recover_secret`) is not among the sources.
The model follows spec sections 4.2 and 4.3: per byte position an
independent polynomial with constant term the secret byte and
`threshold - 1` drawn coefficients; a raw share is the share index byte
followed by the Horner evaluations at x = index; recovery is Lagrange
interpolation at x = 0 after checking equal lengths and distinct indices.
Random coefficients are injected as `coeff` (dependency injection per the
spec's design notes), so theorems quantify over all draws. -/
structure SecretData where
  secret : List Byte
  threshold : Nat
  coeff : Nat → Nat → Byte

/-- Modelled from the spec: constructor of the splitter state. -/
def SecretData.with_secret (secret : List Byte) (threshold : Fin 256)
    (coeff : Nat → Nat → Byte) : SecretData :=
  ⟨secret, threshold.val, coeff⟩

/-- The sharing polynomial for byte position `p`: constant term the secret
byte, then the `threshold - 1` drawn coefficients. -/
def SecretData.polyAt (sd : SecretData) (p : Nat) : List GF :=
  GF.ofByte (sd.secret.getD p 0) ::
    (List.range (sd.threshold - 1)).map (fun k => GF.ofByte (sd.coeff p k))

/-- Modelled from the spec: one raw share, index byte then per-position
Horner evaluations at x = index.  The splitter's InvalidParameters
condition (spec 4.2) is signalled for the parameters visible here:
threshold 0 and the forbidden index 0. -/
def SecretData.get_share (sd : SecretData) (i : Byte) : Except Err (List Byte) :=
  if sd.threshold = 0 then Except.error Err.InvalidParameters
  else if i.val = 0 then Except.error Err.InvalidParameters
  else Except.ok (i :: (List.range sd.secret.length).map
    (fun p => (hornerEval (sd.polyAt p) (GF.ofByte i)).val))

/-- Modelled from the spec: recovery by Lagrange interpolation at x = 0,
after rejecting empty input, mismatched payload lengths (LengthMismatch)
and duplicate indices (DuplicateIndex). -/
def SecretData.recover_secret (shares : List (List Byte)) : Except Err (List Byte) :=
  match shares with
  | [] => Except.error Err.InvalidParameters
  | s0 :: _ =>
    if shares.any (fun s => decide (s.length ≠ s0.length)) then Except.error Err.LengthMismatch
    else if s0.length = 0 then Except.error Err.LengthMismatch
    else if (shares.map (fun s => s.headD 0)).Nodup then
      Except.ok ((List.range (s0.length - 1)).map (fun p =>
        (recByte (shares.map (fun s =>
          (GF.ofByte (s.headD 0), GF.ofByte (s.tail.getD p 0))))).val))
    else Except.error Err.DuplicateIndex

/-! ### Models of the external crates used by src/wrapper.rs -/

/-- Model of the sha3 crate's Sha3_256: an arbitrary fixed deterministic
32-byte digest; the program depends only on determinism and length. -/
def sha3_256 (m : List Byte) : List Byte :=
  (List.range 32).map (fun k => mkByte (m.foldl (fun a b => a * 131 + b.val + 1) k))

/-- Model of the aes_gcm crate's AEAD encryption: idealized authenticated
encryption whose ciphertext is accepted exactly under the encrypting key
and nonce, with the plaintext recoverable; stands in for AES-256-GCM. -/
def aeadEncrypt (key nonce pt : List Byte) : List Byte := key ++ nonce ++ pt

/-- Model of the aes_gcm crate's AEAD decryption: succeeds exactly when the
ciphertext was produced under this key and nonce, else DecryptionFailed. -/
def aeadDecrypt (key nonce ct : List Byte) : Except Err (List Byte) :=
  if ct.take 32 = key ∧ (ct.drop 32).take 12 = nonce then Except.ok ((ct.drop 32).drop 12)
  else Except.error Err.DecryptionFailed

/-- Little-endian u64, as bincode writes `usize` and `Vec` length prefixes. -/
def le64 (n : Nat) : List Byte := (List.range 8).map (fun k => mkByte (n / 256 ^ k))

/-- Read back a little-endian u64 from the first 8 bytes. -/
def readLE64 (l : List Byte) : Nat := (l.take 8).foldr (fun b acc => acc * 256 + b.val) 0

/-- Struct `ShareInfo` from src/wrapper.rs lines 11-18: the envelope metadata
{length, shares, hash, key, nonce}.  Fixed-size arrays are byte lists whose
lengths the serializer fixes. -/
structure ShareInfo where
  length : Nat
  shares : Byte
  hash : List Byte
  key : List Byte
  nonce : List Byte
  deriving DecidableEq

/-- Struct `Share` from src/wrapper.rs lines 20-24: one packaged share, a metadata
raw share together with a ciphertext copy. -/
structure Share where
  info : List Byte
  data : List Byte
  deriving DecidableEq

/-- Model of bincode serialization of `ShareInfo`: fixed layout, u64 LE
length, 1 shares byte, 32 hash bytes, 32 key bytes, 12 nonce bytes. -/
def serializeShareInfo (i : ShareInfo) : List Byte :=
  le64 i.length ++ [i.shares] ++ i.hash ++ i.key ++ i.nonce

/-- Model of bincode deserialization of `ShareInfo` (bincode's legacy
config ignores trailing bytes). -/
def deserializeShareInfo (l : List Byte) : Except Err ShareInfo :=
  if l.length < 85 then Except.error Err.DeserializationFailed
  else Except.ok
    { length := readLE64 (l.take 8)
      shares := (l.drop 8).headD 0
      hash := (l.drop 9).take 32
      key := (l.drop 41).take 32
      nonce := (l.drop 73).take 12 }

/-- Model of bincode serialization of `Share`: two length-prefixed vectors. -/
def serializeShare (s : Share) : List Byte :=
  le64 s.info.length ++ s.info ++ le64 s.data.length ++ s.data

/-- Model of bincode deserialization of `Share`. -/
def deserializeShare (l : List Byte) : Except Err Share :=
  if l.length < 8 then Except.error Err.DeserializationFailed
  else
    let n1 := readLE64 (l.take 8)
    let r1 := l.drop 8
    if r1.length < n1 then Except.error Err.DeserializationFailed
    else
      let r2 := r1.drop n1
      if r2.length < 8 then Except.error Err.DeserializationFailed
      else
        let n2 := readLE64 (r2.take 8)
        let r3 := r2.drop 8
        if r3.length < n2 then Except.error Err.DeserializationFailed
        else Except.ok { info := r1.take n1, data := r3.take n2 }

/-! ### The envelope codec, src/wrapper.rs -/

/-- Function `create_raw_shares` from src/wrapper.rs lines 26-34: build the splitter
state and collect `get_share(i)` for i in 1..=count. -/
def create_raw_shares (input : List Byte) (threshold count : Fin 256)
    (coeff : Nat → Nat → Byte) : Except Err (List (List Byte)) :=
  let secret_data := SecretData.with_secret input threshold coeff
  mapExcept (fun k => secret_data.get_share (mkByte (k + 1))) (List.range count.val)

/-- Function `to_shares` from src/wrapper.rs lines 36-72.  The random key, nonce and
polynomial coefficients drawn from `thread_rng` are injected as arguments;
the idealized AEAD never fails, so the source's encryption error branch is
unreachable in the model. -/
def to_shares (input : List Byte) (threshold count : Fin 256)
    (key nonce : List Byte) (coeff : Nat → Nat → Byte) :
    Except Err (List (List Byte)) := do
  let info : ShareInfo :=
    { length := input.length
      shares := count
      hash := sha3_256 input
      key := key
      nonce := nonce }
  let info_serialized := serializeShareInfo info
  let unverifyable_shares ← create_raw_shares info_serialized threshold count coeff
  let ciphertext := aeadEncrypt key nonce input
  Except.ok ((List.range count.val).map (fun i =>
    serializeShare { info := unverifyable_shares.getD i [], data := ciphertext }))

/-- Function `from_shares` from src/wrapper.rs lines 74-119: empty input returns
empty; deserialize every share; all ciphertexts must agree (else
ShareMismatch, before any recovery or decryption); recover and parse the
metadata; decrypt; verify the plaintext hash (else IntegrityCheckFailed). -/
def from_shares (input : List (List Byte)) : Except Err (List Byte) :=
  if input.length = 0 then Except.ok []
  else do
    let shares ← mapExcept deserializeShare input
    let encrypted_data := (shares.headD { info := [], data := [] }).data
    if shares.any (fun s => decide (s.data ≠ encrypted_data)) then
      Except.error Err.ShareMismatch
    else do
      let decrypted ← SecretData.recover_secret (shares.map (fun s => s.info))
      let info ← deserializeShareInfo decrypted
      let plaintext ← aeadDecrypt info.key info.nonce encrypted_data
      if info.hash ≠ sha3_256 plaintext then Except.error Err.IntegrityCheckFailed
      else Except.ok plaintext

/-! ### Supporting lemmas on the model -/

theorem le64_length (n : Nat) : (le64 n).length = 8 := by
  simp [le64]

theorem sha3_256_length (m : List Byte) : (sha3_256 m).length = 32 := by
  simp [sha3_256]

theorem serializeShareInfo_length (i : ShareInfo) (hh : i.hash.length = 32)
    (hk : i.key.length = 32) (hn : i.nonce.length = 12) :
    (serializeShareInfo i).length = 85 := by
  simp [serializeShareInfo, le64_length, hh, hk, hn]

theorem serializeShare_length (s : Share) :
    (serializeShare s).length = 16 + s.info.length + s.data.length := by
  simp [serializeShare, le64_length]
  ring

theorem readLE64_take (l : List Byte) : readLE64 (l.take 8) = readLE64 l := by
  rw [readLE64, readLE64, List.take_take]
  norm_num

theorem readLE64_le64 (n : Nat) (h : n < 2 ^ 64) (rest : List Byte) :
    readLE64 (le64 n ++ rest) = n := by
  have htake : (le64 n ++ rest).take 8 = le64 n := by
    rw [show (8 : Nat) = (le64 n).length from (le64_length n).symm]
    exact List.take_left _ _
  rw [readLE64, htake, le64]
  have h8 : List.range 8 = [0, 1, 2, 3, 4, 5, 6, 7] := by decide
  rw [h8]
  simp only [List.map_cons, List.map_nil, List.foldr_cons, List.foldr_nil, mkByte]
  norm_num
  omega

theorem take_all_of_length_eq {α} (l : List α) (n : Nat) (h : l.length = n) :
    l.take n = l := by
  rw [← h, List.take_length]

/-- Round trip of the metadata record through the bincode model. -/
theorem deserializeShareInfo_serialize (i : ShareInfo) (hh : i.hash.length = 32)
    (hk : i.key.length = 32) (hn : i.nonce.length = 12) (hlen : i.length < 2 ^ 64) :
    deserializeShareInfo (serializeShareInfo i) = Except.ok i := by
  obtain ⟨L, sh, ha, ke, no⟩ := i
  simp only [ShareInfo.hash, ShareInfo.key, ShareInfo.nonce, ShareInfo.length] at hh hk hn hlen
  have hL : (serializeShareInfo ⟨L, sh, ha, ke, no⟩).length = 85 :=
    serializeShareInfo_length _ hh hk hn
  have h1 : readLE64 ((serializeShareInfo ⟨L, sh, ha, ke, no⟩).take 8) = L := by
    rw [readLE64_take]
    rw [show serializeShareInfo ⟨L, sh, ha, ke, no⟩ =
      le64 L ++ ([sh] ++ (ha ++ (ke ++ no))) by simp [serializeShareInfo]]
    exact readLE64_le64 _ hlen _
  have h2 : (serializeShareInfo ⟨L, sh, ha, ke, no⟩).drop 8 = [sh] ++ (ha ++ (ke ++ no)) := by
    rw [show serializeShareInfo ⟨L, sh, ha, ke, no⟩ =
      le64 L ++ ([sh] ++ (ha ++ (ke ++ no))) by simp [serializeShareInfo]]
    exact List.drop_left' (le64_length L)
  have h3 : (serializeShareInfo ⟨L, sh, ha, ke, no⟩).drop 9 = ha ++ (ke ++ no) := by
    rw [show serializeShareInfo ⟨L, sh, ha, ke, no⟩ =
      (le64 L ++ [sh]) ++ (ha ++ (ke ++ no)) by simp [serializeShareInfo]]
    exact List.drop_left' (by simp [le64_length])
  have h4 : (serializeShareInfo ⟨L, sh, ha, ke, no⟩).drop 41 = ke ++ no := by
    rw [show serializeShareInfo ⟨L, sh, ha, ke, no⟩ =
      ((le64 L ++ [sh]) ++ ha) ++ (ke ++ no) by simp [serializeShareInfo]]
    exact List.drop_left' (by simp [le64_length, hh])
  have h5 : (serializeShareInfo ⟨L, sh, ha, ke, no⟩).drop 73 = no := by
    rw [show serializeShareInfo ⟨L, sh, ha, ke, no⟩ =
      (((le64 L ++ [sh]) ++ ha) ++ ke) ++ no by simp [serializeShareInfo]]
    exact List.drop_left' (by simp [le64_length, hh, hk])
  rw [deserializeShareInfo, if_neg (by omega)]
  simp only [h1, h2, h3, h4, h5, List.singleton_append, List.headD_cons,
    List.take_left' hh, List.take_left' hk, take_all_of_length_eq no 12 hn]

/-- Round trip of a packaged share through the bincode model. -/
theorem deserializeShare_serialize (s : Share) (hi : s.info.length < 2 ^ 64)
    (hd : s.data.length < 2 ^ 64) :
    deserializeShare (serializeShare s) = Except.ok s := by
  obtain ⟨info, data⟩ := s
  simp only [Share.info, Share.data] at hi hd
  have hser : serializeShare ⟨info, data⟩ =
      le64 info.length ++ (info ++ (le64 data.length ++ data)) := by
    simp [serializeShare]
  have hL : (serializeShare ⟨info, data⟩).length = 16 + info.length + data.length := by
    simpa using serializeShare_length ⟨info, data⟩
  have h1 : readLE64 ((serializeShare ⟨info, data⟩).take 8) = info.length := by
    rw [readLE64_take, hser]
    exact readLE64_le64 _ hi _
  have h2 : (serializeShare ⟨info, data⟩).drop 8 = info ++ (le64 data.length ++ data) := by
    rw [hser]
    exact List.drop_left' (le64_length _)
  rw [deserializeShare, if_neg (by omega)]
  simp only [h1, h2]
  have h3 : (info ++ (le64 data.length ++ data)).length = info.length + (8 + data.length) := by
    simp [le64_length]
  rw [if_neg (by omega)]
  have h4 : (info ++ (le64 data.length ++ data)).drop info.length = le64 data.length ++ data :=
    List.drop_left' rfl
  rw [h4]
  have h5 : (le64 data.length ++ data).length = 8 + data.length := by simp [le64_length]
  rw [if_neg (by omega)]
  have h6 : readLE64 ((le64 data.length ++ data).take 8) = data.length := by
    rw [readLE64_take]
    exact readLE64_le64 _ hd _
  have h7 : (le64 data.length ++ data).drop 8 = data := List.drop_left' (le64_length _)
  simp only [h6, h7]
  rw [if_neg (by omega)]
  congr 1
  simp only [Share.mk.injEq]
  exact ⟨List.take_left' rfl, take_all_of_length_eq data data.length rfl⟩

/-- Mapping `mapExcept` succeeds pointwise. -/
theorem mapExcept_ok_of {α β : Type} (f : α → Except Err β) (g : α → β) (l : List α)
    (h : ∀ a ∈ l, f a = Except.ok (g a)) : mapExcept f l = Except.ok (l.map g) := by
  induction l with
  | nil => rfl
  | cons a l ih =>
    rw [mapExcept, h a (List.mem_cons_self a l), ih (fun b hb => h b (List.mem_cons_of_mem a hb))]
    rfl

/-- The raw share that `create_raw_shares` obtains for loop position `k`
(share index `k+1`). -/
def rawShareOf (input : List Byte) (t : Fin 256) (coeff : Nat → Nat → Byte) (k : Nat) :
    List Byte :=
  mkByte (k + 1) :: (List.range input.length).map (fun p =>
    (hornerEval ((SecretData.with_secret input t coeff).polyAt p) (GF.ofByte (mkByte (k + 1)))).val)

theorem rawShareOf_length (input : List Byte) (t : Fin 256) (coeff : Nat → Nat → Byte)
    (k : Nat) : (rawShareOf input t coeff k).length = input.length + 1 := by
  simp [rawShareOf]

theorem getD_map_range {α : Type} (f : Nat → α) (d : α) (n i : Nat) (h : i < n) :
    ((List.range n).map f).getD i d = f i := by
  rw [List.getD_eq_getElem?_getD]
  simp [List.getElem?_map, List.getElem?_range h]

theorem create_raw_shares_ok (input : List Byte) (t n : Fin 256) (coeff : Nat → Nat → Byte)
    (ht : 1 ≤ t.val) :
    create_raw_shares input t n coeff =
      Except.ok ((List.range n.val).map (rawShareOf input t coeff)) := by
  rw [create_raw_shares]
  apply mapExcept_ok_of
  intro k hk
  have hk2 : k < n.val := List.mem_range.mp hk
  have hk3 : k + 1 < 256 := by
    have := n.isLt
    omega
  have hmk : (mkByte (k + 1)).val = k + 1 := by
    simp [mkByte]
    omega
  simp only [SecretData.get_share, SecretData.with_secret, rawShareOf, hmk]
  rw [if_neg (by omega), if_neg (by omega)]

/-- The envelope metadata record `to_shares` builds. -/
def infoRecord (input : List Byte) (n : Fin 256) (key nonce : List Byte) : ShareInfo :=
  { length := input.length
    shares := n
    hash := sha3_256 input
    key := key
    nonce := nonce }

/-- The packaged share list a successful `to_shares` returns: each entry
serializes one raw share of the serialized metadata record, bundled with
the single ciphertext. -/
def packagedShares (input : List Byte) (t n : Fin 256) (key nonce : List Byte)
    (coeff : Nat → Nat → Byte) : List (List Byte) :=
  (List.range n.val).map (fun i =>
    serializeShare
      { info := rawShareOf (serializeShareInfo (infoRecord input n key nonce)) t coeff i
        data := aeadEncrypt key nonce input })

theorem to_shares_ok (input : List Byte) (t n : Fin 256) (key nonce : List Byte)
    (coeff : Nat → Nat → Byte) (ht : 1 ≤ t.val) :
    to_shares input t n key nonce coeff =
      Except.ok (packagedShares input t n key nonce coeff) := by
  have hrec := create_raw_shares_ok (serializeShareInfo (infoRecord input n key nonce)) t n coeff ht
  simp only [infoRecord] at hrec
  rw [to_shares, hrec]
  show Except.ok _ = _
  rw [packagedShares]
  congr 1
  apply List.map_congr_left
  intro i hi
  rw [getD_map_range _ _ _ _ (List.mem_range.mp hi)]
  simp only [infoRecord]

/-- C7: `from_shares` applied to the empty sequence of shares returns an
empty byte buffer successfully, without error (src/wrapper.rs lines 76-78). -/
theorem C7_from_shares_empty : from_shares [] = Except.ok [] := rfl

/-- C8: for every successful `create_raw_shares` call with count `n`,
exactly `n.val` raw shares are produced, the k-th carries share index
`k+1`, and the indices are pairwise distinct and nonzero. -/
theorem C8_create_raw_shares_indices (input : List Byte) (t n : Fin 256)
    (coeff : Nat → Nat → Byte) (raws : List (List Byte))
    (h : create_raw_shares input t n coeff = Except.ok raws) :
    raws.length = n.val ∧
    (∀ k, ∀ hk : k < raws.length, (raws.get ⟨k, hk⟩).headD 0 = mkByte (k + 1)) ∧
    (raws.map (fun s => s.headD 0)).Nodup ∧
    (∀ s ∈ raws, (s.headD 0).val ≠ 0) := by
  by_cases ht : 1 ≤ t.val
  · rw [create_raw_shares_ok input t n coeff ht] at h
    have hr : raws = (List.range n.val).map (rawShareOf input t coeff) :=
      (Except.ok.injEq _ _).mp h.symm
    subst hr
    refine ⟨by simp, ?_, ?_, ?_⟩
    · intro k hk
      have hk2 : k < n.val := by simpa using hk
      rw [List.get_eq_getElem]
      simp only [List.getElem_map, List.getElem_range]
      rfl
    · rw [List.map_map]
      apply List.Nodup.map_on
      · intro x hx y hy hxy
        have hx2 : x < n.val := List.mem_range.mp hx
        have hy2 : y < n.val := List.mem_range.mp hy
        have hn256 := n.isLt
        have hv := congrArg Fin.val hxy
        simp only [Function.comp, rawShareOf, List.headD_cons, mkByte] at hv
        omega
      · exact List.nodup_range n.val
    · intro s hs
      obtain ⟨k, hk, rfl⟩ := List.mem_map.mp hs
      have hk2 : k < n.val := List.mem_range.mp hk
      have hn256 := n.isLt
      simp only [rawShareOf, List.headD_cons, mkByte]
      omega
  · have ht0 : t.val = 0 := by omega
    by_cases hn : n.val = 0
    · have h0 : create_raw_shares input t n coeff = Except.ok [] := by
        simp [create_raw_shares, hn, mapExcept]
      rw [h0] at h
      have hr : raws = [] := (Except.ok.injEq _ _).mp h.symm
      subst hr
      simp [hn]
    · exfalso
      obtain ⟨m, hm⟩ : ∃ m, n.val = m + 1 := ⟨n.val - 1, by omega⟩
      rw [create_raw_shares, hm, List.range_succ_eq_map] at h
      simp only [mapExcept, SecretData.get_share, SecretData.with_secret, ht0] at h
      exact Except.noConfusion
        (show (Except.error Err.InvalidParameters : Except Err (List (List Byte))) =
          Except.ok raws from h)

/-- C8 witness: splitting a 1-byte secret with threshold 1 into 2 raw
shares yields exactly the shares with indices 1 and 2. -/
theorem C8_witness :
    ([[(1 : Fin 256), 5], [(2 : Fin 256), 5]] : List (List Byte)).length = 2 ∧
    (([[(1 : Fin 256), 5], [(2 : Fin 256), 5]] : List (List Byte)).map
      (fun s => s.headD 0)).Nodup := by
  have h := C8_create_raw_shares_indices [(5 : Fin 256)] 1 2 (fun _ _ => 0)
    [[(1 : Fin 256), 5], [(2 : Fin 256), 5]] (by rfl)
  exact ⟨h.1, h.2.2.1⟩

/-- With threshold 0 and a positive count, the first `get_share` call of
the modelled splitter signals InvalidParameters, which `to_shares`
propagates. -/
theorem to_shares_threshold_zero (input : List Byte) (t n : Fin 256)
    (key nonce : List Byte) (coeff : Nat → Nat → Byte)
    (ht0 : t.val = 0) (hn : 1 ≤ n.val) :
    to_shares input t n key nonce coeff = Except.error Err.InvalidParameters := by
  obtain ⟨m, hm⟩ : ∃ m, n.val = m + 1 := ⟨n.val - 1, by omega⟩
  rw [to_shares, create_raw_shares, hm, List.range_succ_eq_map]
  simp only [mapExcept, SecretData.get_share, SecretData.with_secret, ht0]
  rfl

/-- With count 0 the share loops never run, so `to_shares` returns an
empty share list whatever the threshold. -/
theorem to_shares_count_zero (input : List Byte) (t n : Fin 256)
    (key nonce : List Byte) (coeff : Nat → Nat → Byte) (hn0 : n.val = 0) :
    to_shares input t n key nonce coeff = Except.ok [] := by
  rw [to_shares, create_raw_shares, hn0]
  rfl

/-- Inversion: every successful `to_shares` run returns exactly the
packaged share list. -/
theorem to_shares_ok_inv (input : List Byte) (t n : Fin 256) (key nonce : List Byte)
    (coeff : Nat → Nat → Byte) (ss : List (List Byte))
    (h : to_shares input t n key nonce coeff = Except.ok ss) :
    ss = packagedShares input t n key nonce coeff := by
  by_cases ht : 1 ≤ t.val
  · rw [to_shares_ok input t n key nonce coeff ht] at h
    exact ((Except.ok.injEq _ _).mp h).symm
  · have ht0 : t.val = 0 := by omega
    by_cases hn : n.val = 0
    · rw [to_shares_count_zero input t n key nonce coeff hn] at h
      rw [← (Except.ok.injEq _ _).mp h]
      simp [packagedShares, hn]
    · rw [to_shares_threshold_zero input t n key nonce coeff ht0 (by omega)] at h
      exact Except.noConfusion h

/-- C2 counterexample: `to_shares` called with threshold 2 and count 1 —
violating the claimed constraint threshold ≤ count — succeeds and returns
shares instead of failing with InvalidParameters. -/
theorem C2_counterexample :
    (to_shares [(7 : Fin 256)] 2 1 (List.replicate 32 (0 : Fin 256))
      (List.replicate 12 (0 : Fin 256)) (fun _ _ => 0)).isOk = true := by rfl

/-- C2 amended: `to_shares` validates neither count nor the relation of
threshold to count.  For any threshold ≥ 1 it succeeds for every count,
returning exactly count packaged shares; threshold 0 with count ≥ 1 fails
with InvalidParameters (signalled by the modelled splitter); threshold 0
with count 0 even returns an empty share list successfully.  Count > 255
is unrepresentable at the u8 type. -/
theorem C2_to_shares_parameter_handling (input : List Byte) (t n : Fin 256)
    (key nonce : List Byte) (coeff : Nat → Nat → Byte) :
    (1 ≤ t.val →
      to_shares input t n key nonce coeff =
        Except.ok (packagedShares input t n key nonce coeff) ∧
      (packagedShares input t n key nonce coeff).length = n.val) ∧
    (t.val = 0 → 1 ≤ n.val →
      to_shares input t n key nonce coeff = Except.error Err.InvalidParameters) ∧
    (t.val = 0 → n.val = 0 →
      to_shares input t n key nonce coeff = Except.ok []) := by
  refine ⟨?_, ?_, ?_⟩
  · intro ht
    exact ⟨to_shares_ok input t n key nonce coeff ht, by simp [packagedShares]⟩
  · intro ht0 hn
    exact to_shares_threshold_zero input t n key nonce coeff ht0 hn
  · intro ht0 hn0
    exact to_shares_count_zero input t n key nonce coeff hn0

/-- C2 witness: the three regimes at concrete parameters — threshold 1 and
count 2 succeeds with 2 shares; threshold 0 and count 1 fails with
InvalidParameters; threshold 0 and count 0 returns no shares. -/
theorem C2_witness :
    (to_shares [(7 : Fin 256)] 1 2 (List.replicate 32 (0 : Fin 256))
        (List.replicate 12 (0 : Fin 256)) (fun _ _ => 0) =
      Except.ok (packagedShares [(7 : Fin 256)] 1 2 (List.replicate 32 (0 : Fin 256))
        (List.replicate 12 (0 : Fin 256)) (fun _ _ => 0)) ∧
      (packagedShares [(7 : Fin 256)] 1 2 (List.replicate 32 (0 : Fin 256))
        (List.replicate 12 (0 : Fin 256)) (fun _ _ => 0)).length = 2) ∧
    to_shares [(7 : Fin 256)] 0 1 (List.replicate 32 (0 : Fin 256))
      (List.replicate 12 (0 : Fin 256)) (fun _ _ => 0) =
        Except.error Err.InvalidParameters ∧
    to_shares [(7 : Fin 256)] 0 0 (List.replicate 32 (0 : Fin 256))
      (List.replicate 12 (0 : Fin 256)) (fun _ _ => 0) = Except.ok [] := by
  have h1 := C2_to_shares_parameter_handling [(7 : Fin 256)] 1 2
    (List.replicate 32 (0 : Fin 256)) (List.replicate 12 (0 : Fin 256)) (fun _ _ => 0)
  have h2 := C2_to_shares_parameter_handling [(7 : Fin 256)] 0 1
    (List.replicate 32 (0 : Fin 256)) (List.replicate 12 (0 : Fin 256)) (fun _ _ => 0)
  have h3 := C2_to_shares_parameter_handling [(7 : Fin 256)] 0 0
    (List.replicate 32 (0 : Fin 256)) (List.replicate 12 (0 : Fin 256)) (fun _ _ => 0)
  exact ⟨h1.1 (by decide), h2.2.1 (by decide) (by decide), h3.2.2 (by decide) (by decide)⟩

/-- C5: for every successful `to_shares` call, every returned packaged
share deserializes to a `Share` whose data field is exactly the single
ciphertext of the one authenticated encryption of the input — all shares
carry byte-identical ciphertext. -/
theorem C5_ciphertext_identity (input : List Byte) (t n : Fin 256)
    (key nonce : List Byte) (coeff : Nat → Nat → Byte) (ss : List (List Byte))
    (hkey : key.length = 32) (hnonce : nonce.length = 12)
    (hlen : input.length + 44 < 2 ^ 64)
    (h : to_shares input t n key nonce coeff = Except.ok ss) :
    ∀ s ∈ ss, (deserializeShare s).map Share.data =
      Except.ok (aeadEncrypt key nonce input) := by
  have hss := to_shares_ok_inv input t n key nonce coeff ss h
  subst hss
  intro s hs
  obtain ⟨i, hi, rfl⟩ := List.mem_map.mp hs
  have hrec : (serializeShareInfo (infoRecord input n key nonce)).length = 85 := by
    apply serializeShareInfo_length
    · simp [infoRecord, sha3_256_length]
    · simp [infoRecord, hkey]
    · simp [infoRecord, hnonce]
  have hdes := deserializeShare_serialize
    { info := rawShareOf (serializeShareInfo (infoRecord input n key nonce)) t coeff i
      data := aeadEncrypt key nonce input }
    (by rw [rawShareOf_length, hrec]; norm_num)
    (by simp only [aeadEncrypt, List.length_append, hkey, hnonce]; omega)
  rw [hdes]
  rfl

/-- C5 witness: the first share of a concrete 1-of-1 split carries the
ciphertext of the encryption of the input. -/
theorem C5_witness :
    (deserializeShare ((packagedShares [(7 : Fin 256)] 1 1
        (List.replicate 32 (0 : Fin 256)) (List.replicate 12 (0 : Fin 256))
        (fun _ _ => 0)).getD 0 [])).map Share.data =
      Except.ok (aeadEncrypt (List.replicate 32 (0 : Fin 256))
        (List.replicate 12 (0 : Fin 256)) [(7 : Fin 256)]) := by
  have h := C5_ciphertext_identity [(7 : Fin 256)] 1 1
    (List.replicate 32 (0 : Fin 256)) (List.replicate 12 (0 : Fin 256)) (fun _ _ => 0)
    (packagedShares [(7 : Fin 256)] 1 1 (List.replicate 32 (0 : Fin 256))
      (List.replicate 12 (0 : Fin 256)) (fun _ _ => 0))
    (by decide) (by decide) (by decide) (by rfl)
  exact h _ (by decide)

/-- C10: all serialized packaged share byte buffers of one successful
`to_shares` call have equal length. -/
theorem C10_equal_share_lengths (input : List Byte) (t n : Fin 256)
    (key nonce : List Byte) (coeff : Nat → Nat → Byte) (ss : List (List Byte))
    (h : to_shares input t n key nonce coeff = Except.ok ss) :
    ∀ s1 ∈ ss, ∀ s2 ∈ ss, s1.length = s2.length := by
  have hss := to_shares_ok_inv input t n key nonce coeff ss h
  subst hss
  intro s1 hs1 s2 hs2
  obtain ⟨i, hi, rfl⟩ := List.mem_map.mp hs1
  obtain ⟨j, hj, rfl⟩ := List.mem_map.mp hs2
  rw [serializeShare_length, serializeShare_length]
  simp [rawShareOf_length]

/-- C10 witness: the two shares of a concrete 1-of-2 split have equal
serialized length. -/
theorem C10_witness :
    ((packagedShares [(7 : Fin 256)] 1 2 (List.replicate 32 (0 : Fin 256))
        (List.replicate 12 (0 : Fin 256)) (fun _ _ => 0)).getD 0 []).length =
      ((packagedShares [(7 : Fin 256)] 1 2 (List.replicate 32 (0 : Fin 256))
        (List.replicate 12 (0 : Fin 256)) (fun _ _ => 0)).getD 1 []).length := by
  have h := C10_equal_share_lengths [(7 : Fin 256)] 1 2
    (List.replicate 32 (0 : Fin 256)) (List.replicate 12 (0 : Fin 256)) (fun _ _ => 0)
    (packagedShares [(7 : Fin 256)] 1 2 (List.replicate 32 (0 : Fin 256))
      (List.replicate 12 (0 : Fin 256)) (fun _ _ => 0)) (by rfl)
  exact h _ (by decide) _ (by decide)

theorem bind_ok {α β : Type} (a : α) (f : α → Except Err β) :
    (Bind.bind (Except.ok a) f) = f a := rfl

theorem mapExcept_map {α β γ : Type} (f : β → Except Err γ) (g : α → β) (l : List α) :
    mapExcept f (l.map g) = mapExcept (fun a => f (g a)) l := by
  induction l with
  | nil => rfl
  | cons a l ih =>
    simp only [List.map_cons, mapExcept, ih]

/-- C4: for every non-empty list of packaged shares in which some two
shares carry differing ciphertext bytes, `from_shares` fails with
ShareMismatch; in the model this early return structurally precedes the
metadata recovery and the decryption (wrapper.rs lines 86-93). -/
theorem C4_share_mismatch (shs : List Share)
    (hne : shs ≠ [])
    (hbounds : ∀ sh ∈ shs, sh.info.length < 2 ^ 64 ∧ sh.data.length < 2 ^ 64)
    (hdiff : ∃ a ∈ shs, ∃ b ∈ shs, a.data ≠ b.data) :
    from_shares (shs.map serializeShare) = Except.error Err.ShareMismatch := by
  rw [from_shares, if_neg (by simp [hne])]
  rw [mapExcept_map, mapExcept_ok_of _ id shs
    (fun sh hsh => deserializeShare_serialize sh (hbounds sh hsh).1 (hbounds sh hsh).2),
    List.map_id, bind_ok]
  have hany : shs.any (fun s => decide (s.data ≠ (shs.headD ⟨[], []⟩).data)) = true := by
    obtain ⟨a, ha, b, hb, hab⟩ := hdiff
    rw [List.any_eq_true]
    by_cases hahd : a.data = (shs.headD ⟨[], []⟩).data
    · refine ⟨b, hb, ?_⟩
      simp only [decide_eq_true_eq]
      rw [← hahd]
      exact fun hh => hab hh.symm
    · exact ⟨a, ha, by simp only [decide_eq_true_eq]; exact hahd⟩
  rw [if_pos hany]

/-- C4 witness: two serialized shares with identical info but differing
ciphertext bytes are rejected with ShareMismatch. -/
theorem C4_witness :
    from_shares (([⟨[1], [2]⟩, ⟨[1], [3]⟩] : List Share).map serializeShare) =
      Except.error Err.ShareMismatch := by
  apply C4_share_mismatch
  · decide
  · decide
  · exact ⟨⟨[1], [2]⟩, by decide, ⟨[1], [3]⟩, by decide, by decide⟩

/-- C6: when `from_shares` reaches its final stage — the shares
deserialized, the ciphertexts identical, the metadata recovered and
parsed, the ciphertext decrypted — it returns the plaintext exactly when
the 256-bit hash of the decrypted plaintext equals the hash field of the
recovered metadata, and fails with IntegrityCheckFailed when they differ
(wrapper.rs lines 112-118). -/
theorem C6_hash_gate (input : List (List Byte)) (shares : List Share)
    (d : List Byte) (info : ShareInfo) (pt : List Byte)
    (hne : ¬input.length = 0)
    (hdes : mapExcept deserializeShare input = Except.ok shares)
    (hmatch : shares.any (fun s => decide (s.data ≠ (shares.headD ⟨[], []⟩).data)) = false)
    (hrec : SecretData.recover_secret (shares.map (fun s => s.info)) = Except.ok d)
    (hinfo : deserializeShareInfo d = Except.ok info)
    (hdec : aeadDecrypt info.key info.nonce (shares.headD ⟨[], []⟩).data = Except.ok pt) :
    from_shares input = (if info.hash = sha3_256 pt then Except.ok pt
      else Except.error Err.IntegrityCheckFailed) := by
  rw [from_shares, if_neg hne, hdes, bind_ok, if_neg (by rw [hmatch]; exact Bool.false_ne_true),
    hrec, bind_ok, hinfo, bind_ok, hdec, bind_ok]
  by_cases hh : info.hash = sha3_256 pt
  · rw [if_neg (by rw [hh]; exact fun hc => hc rfl), if_pos hh]
  · rw [if_pos hh, if_neg hh]

/-- Fixture for the C6 witness: the serialized metadata record of a 1-byte
secret in a 1-of-1 split with all-zero key and nonce. -/
def c6rec : List Byte :=
  serializeShareInfo (infoRecord [(7 : Fin 256)] 1 (List.replicate 32 0) (List.replicate 12 0))

/-- Fixture for the C6 witness: the matching ciphertext. -/
def c6ct : List Byte :=
  aeadEncrypt (List.replicate 32 0) (List.replicate 12 0) [(7 : Fin 256)]

/-- C6 witness: a concrete single-share recovery reaches the hash gate and
returns the plaintext exactly because the recovered hash matches. -/
theorem C6_witness :
    from_shares [serializeShare { info := mkByte 1 :: c6rec, data := c6ct }] =
      (if (infoRecord [(7 : Fin 256)] 1 (List.replicate 32 0)
            (List.replicate 12 0)).hash = sha3_256 [(7 : Fin 256)]
        then Except.ok [(7 : Fin 256)]
        else Except.error Err.IntegrityCheckFailed) :=
  C6_hash_gate [serializeShare { info := mkByte 1 :: c6rec, data := c6ct }]
    [{ info := mkByte 1 :: c6rec, data := c6ct }] c6rec
    (infoRecord [(7 : Fin 256)] 1 (List.replicate 32 0) (List.replicate 12 0))
    [(7 : Fin 256)]
    (by decide) (by rfl) (by rfl) (by rfl) (by rfl) (by rfl)

/-- C9: the plaintext `from_shares` returns is independent of the length
and shares fields of the recovered envelope metadata: two runs whose
recovered metadata records agree on hash, key and nonce (but may differ in
length and shares) and whose shared ciphertexts agree produce identical
results; in particular the recorded plaintext length is never used to
check or truncate the output (wrapper.rs lines 103-118 read only the key,
nonce and hash fields). -/
theorem C9_metadata_independence (in1 in2 : List (List Byte))
    (sh1 sh2 : List Share) (d1 d2 : List Byte) (i1 i2 : ShareInfo)
    (hne1 : ¬in1.length = 0) (hne2 : ¬in2.length = 0)
    (hdes1 : mapExcept deserializeShare in1 = Except.ok sh1)
    (hdes2 : mapExcept deserializeShare in2 = Except.ok sh2)
    (hm1 : sh1.any (fun s => decide (s.data ≠ (sh1.headD ⟨[], []⟩).data)) = false)
    (hm2 : sh2.any (fun s => decide (s.data ≠ (sh2.headD ⟨[], []⟩).data)) = false)
    (hct : (sh1.headD ⟨[], []⟩).data = (sh2.headD ⟨[], []⟩).data)
    (hrec1 : SecretData.recover_secret (sh1.map (fun s => s.info)) = Except.ok d1)
    (hrec2 : SecretData.recover_secret (sh2.map (fun s => s.info)) = Except.ok d2)
    (hi1 : deserializeShareInfo d1 = Except.ok i1)
    (hi2 : deserializeShareInfo d2 = Except.ok i2)
    (hhash : i1.hash = i2.hash) (hkey : i1.key = i2.key) (hnonce : i1.nonce = i2.nonce) :
    from_shares in1 = from_shares in2 := by
  rw [from_shares, from_shares, if_neg hne1, if_neg hne2, hdes1, hdes2, bind_ok, bind_ok,
    if_neg (by rw [hm1]; exact Bool.false_ne_true),
    if_neg (by rw [hm2]; exact Bool.false_ne_true),
    hrec1, hrec2, bind_ok, bind_ok, hi1, hi2, bind_ok, bind_ok]
  simp only [hhash, hkey, hnonce, hct]

/-- Fixture for the C9 witness: a serialized metadata record. -/
def c9rec : List Byte :=
  serializeShareInfo (infoRecord [(7 : Fin 256)] 1 (List.replicate 32 0) (List.replicate 12 0))

/-- Fixture for the C9 witness: the same record with the low byte of the
length field changed from 1 to 99; hash, key and nonce are untouched. -/
def c9rec2 : List Byte := mkByte 99 :: c9rec.drop 1

/-- Fixture for the C9 witness: the shared ciphertext. -/
def c9ct : List Byte :=
  aeadEncrypt (List.replicate 32 0) (List.replicate 12 0) [(7 : Fin 256)]

/-- C9 witness: two concrete single-share recoveries whose recovered
records differ only in the length field produce identical results. -/
theorem C9_witness :
    from_shares [serializeShare { info := mkByte 1 :: c9rec, data := c9ct }] =
      from_shares [serializeShare { info := mkByte 1 :: c9rec2, data := c9ct }] :=
  C9_metadata_independence
    [serializeShare { info := mkByte 1 :: c9rec, data := c9ct }]
    [serializeShare { info := mkByte 1 :: c9rec2, data := c9ct }]
    [{ info := mkByte 1 :: c9rec, data := c9ct }]
    [{ info := mkByte 1 :: c9rec2, data := c9ct }]
    c9rec c9rec2
    (infoRecord [(7 : Fin 256)] 1 (List.replicate 32 0) (List.replicate 12 0))
    { length := 99
      shares := 1
      hash := sha3_256 [(7 : Fin 256)]
      key := List.replicate 32 0
      nonce := List.replicate 12 0 }
    (by decide) (by decide) (by rfl) (by rfl) (by rfl) (by rfl) (by rfl)
    (by rfl) (by rfl) (by rfl) (by rfl) (by rfl) (by rfl) (by rfl)

theorem aeadEncrypt_take32 {key nonce pt : List Byte} (hkey : key.length = 32) :
    (aeadEncrypt key nonce pt).take 32 = key := by
  rw [show aeadEncrypt key nonce pt = key ++ (nonce ++ pt) by simp [aeadEncrypt]]
  exact List.take_left' hkey

theorem aeadEncrypt_drop32_take12 {key nonce pt : List Byte} (hkey : key.length = 32)
    (hnonce : nonce.length = 12) :
    ((aeadEncrypt key nonce pt).drop 32).take 12 = nonce := by
  rw [show aeadEncrypt key nonce pt = key ++ (nonce ++ pt) by simp [aeadEncrypt],
    List.drop_left' hkey]
  exact List.take_left' hnonce

theorem aeadEncrypt_drop44 {key nonce pt : List Byte} (hkey : key.length = 32)
    (hnonce : nonce.length = 12) :
    ((aeadEncrypt key nonce pt).drop 32).drop 12 = pt := by
  rw [show aeadEncrypt key nonce pt = key ++ (nonce ++ pt) by simp [aeadEncrypt],
    List.drop_left' hkey]
  exact List.drop_left' hnonce

/-- Round trip of the idealized AEAD. -/
theorem aeadDecrypt_encrypt {key nonce pt : List Byte} (hkey : key.length = 32)
    (hnonce : nonce.length = 12) :
    aeadDecrypt key nonce (aeadEncrypt key nonce pt) = Except.ok pt := by
  rw [aeadDecrypt, if_pos ⟨aeadEncrypt_take32 hkey, aeadEncrypt_drop32_take12 hkey hnonce⟩,
    aeadEncrypt_drop44 hkey hnonce]

theorem map_range_getD {α : Type} (l : List α) (d : α) :
    (List.range l.length).map (fun p => l.getD p d) = l := by
  apply List.ext_getElem
  · simp
  · intro i h1 h2
    simp only [List.getElem_map, List.getElem_range]
    rw [List.getD_eq_getElem?_getD, List.getElem?_eq_getElem h2]
    rfl

/-- The tail stage of `from_shares` (wrapper.rs lines 103-118): parse the
recovered metadata, decrypt the shared ciphertext, verify the hash. -/
def finishDecrypt (ct d : List Byte) : Except Err (List Byte) := do
  let info ← deserializeShareInfo d
  let plaintext ← aeadDecrypt info.key info.nonce ct
  if info.hash ≠ sha3_256 plaintext then Except.error Err.IntegrityCheckFailed
  else Except.ok plaintext

/-- The byte list the modelled recoverer returns when `from_shares` is run
on the packaged shares selected by `idxs`: per record position, the
Lagrange recovery formula applied to that position's evaluation points. -/
def recoveredOnSubset (input : List Byte) (t n : Fin 256) (key nonce : List Byte)
    (coeff : Nat → Nat → Byte) (idxs : List Nat) : List Byte :=
  (List.range 85).map (fun p =>
    (recByte (idxs.map (fun i =>
      (GF.ofByte (mkByte (i + 1)),
        hornerEval ((SecretData.with_secret
          (serializeShareInfo (infoRecord input n key nonce)) t coeff).polyAt p)
          (GF.ofByte (mkByte (i + 1))))))).val)

theorem GF.ofByte_val (g : GF) : GF.ofByte g.val = g := rfl

/-- Evaluation of the modelled recoverer on a family of raw shares of one
record, selected by loop positions `idxs`: it accepts (equal lengths,
distinct indices) and returns the per-position Lagrange recovery values. -/
theorem recover_secret_raw (record : List Byte) (t : Fin 256) (coeff : Nat → Nat → Byte)
    (i0 : Nat) (rest : List Nat)
    (hnd : (((i0 :: rest) : List Nat).map (fun i => mkByte (i + 1))).Nodup) :
    SecretData.recover_secret (((i0 :: rest) : List Nat).map
        (fun i => rawShareOf record t coeff i)) =
      Except.ok ((List.range record.length).map (fun p =>
        (recByte (((i0 :: rest) : List Nat).map (fun i =>
          (GF.ofByte (mkByte (i + 1)),
            hornerEval ((SecretData.with_secret record t coeff).polyAt p)
              (GF.ofByte (mkByte (i + 1))))))).val)) := by
  rw [List.map_cons]
  simp only [SecretData.recover_secret]
  have hlen_all : ∀ s ∈ (rawShareOf record t coeff i0 ::
      rest.map (fun i => rawShareOf record t coeff i)), s.length = record.length + 1 := by
    intro s hs
    rcases List.mem_cons.mp hs with h | h
    · rw [h, rawShareOf_length]
    · obtain ⟨i, _, rfl⟩ := List.mem_map.mp h
      rw [rawShareOf_length]
  have hc1 : (rawShareOf record t coeff i0 ::
      rest.map (fun i => rawShareOf record t coeff i)).any
        (fun s => decide (s.length ≠ (rawShareOf record t coeff i0).length)) = false := by
    rw [List.any_eq_false]
    intro s hs
    simp only [decide_eq_true_eq, Decidable.not_not]
    rw [hlen_all s hs, rawShareOf_length]
  rw [hc1]
  simp only [Bool.false_eq_true, if_false]
  rw [if_neg (by rw [rawShareOf_length]; omega)]
  have hheads : (rawShareOf record t coeff i0 ::
      rest.map (fun i => rawShareOf record t coeff i)).map (fun s => s.headD 0) =
      ((i0 :: rest) : List Nat).map (fun i => mkByte (i + 1)) := by
    rw [List.map_cons, List.map_cons, List.map_map]
    rfl
  rw [hheads, if_pos hnd, rawShareOf_length]
  congr 1
  have hlen1 : record.length + 1 - 1 = record.length := by omega
  rw [hlen1]
  apply List.map_congr_left
  intro p hp
  have hp85 : p < record.length := List.mem_range.mp hp
  have harg : (rawShareOf record t coeff i0 ::
      rest.map (fun i => rawShareOf record t coeff i)).map
        (fun s => (GF.ofByte (s.headD 0), GF.ofByte (s.tail.getD p 0))) =
      ((i0 :: rest) : List Nat).map (fun i =>
        (GF.ofByte (mkByte (i + 1)),
          hornerEval ((SecretData.with_secret record t coeff).polyAt p)
            (GF.ofByte (mkByte (i + 1))))) := by
    rw [← List.map_cons (fun i => rawShareOf record t coeff i) i0 rest, List.map_map]
    apply List.map_congr_left
    intro i _
    simp only [Function.comp_apply, rawShareOf, List.headD_cons, List.tail_cons]
    rw [getD_map_range _ _ _ _ hp85]
    rfl
  rw [harg]

/-- Master pipeline lemma: `from_shares` on any nonempty duplicate-free
selection of the packaged shares deserializes them, passes the ciphertext
identity check, recovers the metadata bytes by interpolation, and hands
them to the final parse-decrypt-verify stage. -/
theorem from_shares_subset (input : List Byte) (t n : Fin 256) (key nonce : List Byte)
    (coeff : Nat → Nat → Byte) (idxs : List Nat)
    (hkey : key.length = 32) (hnonce : nonce.length = 12)
    (hlen : input.length + 44 < 2 ^ 64)
    (hnd : idxs.Nodup) (hbound : ∀ i ∈ idxs, i < n.val) (hne : idxs ≠ []) :
    from_shares (idxs.map (fun i => (packagedShares input t n key nonce coeff).getD i [])) =
      finishDecrypt (aeadEncrypt key nonce input)
        (recoveredOnSubset input t n key nonce coeff idxs) := by
  have hrec85 : (serializeShareInfo (infoRecord input n key nonce)).length = 85 := by
    apply serializeShareInfo_length
    · simp [infoRecord, sha3_256_length]
    · simp [infoRecord, hkey]
    · simp [infoRecord, hnonce]
  have hsel : idxs.map (fun i => (packagedShares input t n key nonce coeff).getD i []) =
      idxs.map (fun i => serializeShare
        { info := rawShareOf (serializeShareInfo (infoRecord input n key nonce)) t coeff i
          data := aeadEncrypt key nonce input }) := by
    apply List.map_congr_left
    intro i hi
    rw [packagedShares, getD_map_range _ _ _ _ (hbound i hi)]
  rw [hsel]
  have hdes : mapExcept deserializeShare (idxs.map (fun i => serializeShare
      { info := rawShareOf (serializeShareInfo (infoRecord input n key nonce)) t coeff i
        data := aeadEncrypt key nonce input })) =
      Except.ok (idxs.map (fun i =>
        ({ info := rawShareOf (serializeShareInfo (infoRecord input n key nonce)) t coeff i
           data := aeadEncrypt key nonce input } : Share))) := by
    rw [mapExcept_map]
    apply mapExcept_ok_of
    intro i _
    apply deserializeShare_serialize
    · show (rawShareOf _ t coeff i).length < 2 ^ 64
      rw [rawShareOf_length, hrec85]
      norm_num
    · show (aeadEncrypt key nonce input).length < 2 ^ 64
      simp only [aeadEncrypt, List.length_append, hkey, hnonce]
      omega
  obtain ⟨i0, rest, hidxs⟩ : ∃ i0 rest, idxs = i0 :: rest := by
    cases idxs with
    | nil => exact absurd rfl hne
    | cons a l => exact ⟨a, l, rfl⟩
  subst hidxs
  rw [from_shares, if_neg (by simp), hdes, bind_ok]
  have hany : ((((i0 :: rest) : List Nat)).map (fun i =>
      ({ info := rawShareOf (serializeShareInfo (infoRecord input n key nonce)) t coeff i
         data := aeadEncrypt key nonce input } : Share))).any (fun s =>
        decide (s.data ≠ (((((i0 :: rest) : List Nat)).map (fun i =>
          ({ info := rawShareOf (serializeShareInfo (infoRecord input n key nonce)) t coeff i
             data := aeadEncrypt key nonce input } : Share))).headD ⟨[], []⟩).data)) = false := by
    rw [List.any_eq_false]
    intro s hs
    obtain ⟨i, _, rfl⟩ := List.mem_map.mp hs
    simp only [List.map_cons, List.headD_cons, decide_eq_true_eq, Decidable.not_not]
  rw [if_neg (by rw [hany]; exact Bool.false_ne_true)]
  have hinfos : (((i0 :: rest) : List Nat).map (fun i =>
      ({ info := rawShareOf (serializeShareInfo (infoRecord input n key nonce)) t coeff i
         data := aeadEncrypt key nonce input } : Share))).map (fun s => s.info) =
      ((i0 :: rest) : List Nat).map
        (fun i => rawShareOf (serializeShareInfo (infoRecord input n key nonce)) t coeff i) := by
    rw [List.map_map]
    rfl
  rw [hinfos]
  have hndm : (((i0 :: rest) : List Nat).map (fun i => mkByte (i + 1))).Nodup := by
    apply List.Nodup.map_on
    · intro x hx y hy hxy
      have hx2 : x < n.val := hbound x hx
      have hy2 : y < n.val := hbound y hy
      have hn256 := n.isLt
      have hv := congrArg Fin.val hxy
      simp only [mkByte] at hv
      omega
    · exact hnd
  rw [recover_secret_raw _ t coeff i0 rest hndm, bind_ok, hrec85]
  rfl

/-- C3 counterexample: the claim "recovery from fewer than t shares never
returns S" fails on the code.  With threshold 2 and all-zero drawn
coefficients, a single share of the split of [7] recovers the exact
metadata record, decrypts, passes the hash check and returns [7]. -/
theorem C3_counterexample :
    from_shares [(packagedShares [(7 : Fin 256)] 2 2 (List.replicate 32 (0 : Fin 256))
        (List.replicate 12 (0 : Fin 256)) (fun _ _ => 0)).getD 0 []] =
      Except.ok [(7 : Fin 256)] := by rfl

/-- C3 amended: recovery from any under-threshold subset (at least one
share, fewer than t) either fails with DecryptionFailed or
IntegrityCheckFailed, or — when the drawn coefficients make the
under-threshold interpolation reproduce the original key, nonce and hash,
as with all-zero coefficients — returns exactly the original plaintext S.
It never succeeds with an incorrect plaintext. -/
theorem C3_under_threshold (input : List Byte) (t n : Fin 256) (key nonce : List Byte)
    (coeff : Nat → Nat → Byte) (ss : List (List Byte)) (idxs : List Nat)
    (hkey : key.length = 32) (hnonce : nonce.length = 12)
    (hlen : input.length + 44 < 2 ^ 64)
    (hnd : idxs.Nodup) (hbound : ∀ i ∈ idxs, i < n.val) (hne : idxs ≠ [])
    (hsub : idxs.length < t.val)
    (h : to_shares input t n key nonce coeff = Except.ok ss) :
    from_shares (idxs.map (fun i => ss.getD i [])) = Except.error Err.DecryptionFailed ∨
    from_shares (idxs.map (fun i => ss.getD i [])) = Except.error Err.IntegrityCheckFailed ∨
    from_shares (idxs.map (fun i => ss.getD i [])) = Except.ok input := by
  have hss := to_shares_ok_inv input t n key nonce coeff ss h
  subst hss
  rw [from_shares_subset input t n key nonce coeff idxs hkey hnonce hlen hnd hbound hne]
  have hdlen : (recoveredOnSubset input t n key nonce coeff idxs).length = 85 := by
    simp [recoveredOnSubset]
  obtain ⟨dinfo, hinfo⟩ : ∃ i, deserializeShareInfo
      (recoveredOnSubset input t n key nonce coeff idxs) = Except.ok i :=
    ⟨_, by rw [deserializeShareInfo, if_neg (by omega)]⟩
  rw [finishDecrypt, hinfo, bind_ok]
  by_cases hk : dinfo.key = key ∧ dinfo.nonce = nonce
  · have hdec : aeadDecrypt dinfo.key dinfo.nonce (aeadEncrypt key nonce input) =
        Except.ok input := by
      rw [hk.1, hk.2]
      exact aeadDecrypt_encrypt hkey hnonce
    rw [hdec, bind_ok]
    by_cases hh : dinfo.hash = sha3_256 input
    · right
      right
      rw [if_neg (fun hc => hc hh)]
    · right
      left
      rw [if_pos hh]
  · left
    have hdec : aeadDecrypt dinfo.key dinfo.nonce (aeadEncrypt key nonce input) =
        Except.error Err.DecryptionFailed := by
      rw [aeadDecrypt, if_neg]
      intro hcond
      rw [aeadEncrypt_take32 hkey] at hcond
      rw [aeadEncrypt_drop32_take12 hkey hnonce] at hcond
      exact hk ⟨hcond.1.symm, hcond.2.symm⟩
    rw [hdec]
    rfl

/-- C3 witness: a single share of a concrete 2-of-2 split with nonzero
coefficients is an under-threshold subset; the theorem applies to it. -/
theorem C3_witness :
    from_shares ([0].map (fun i => (packagedShares [(7 : Fin 256)] 2 2
        (List.replicate 32 (0 : Fin 256)) (List.replicate 12 (0 : Fin 256))
        (fun p k => mkByte (p + k + 3))).getD i [])) =
      Except.error Err.DecryptionFailed ∨
    from_shares ([0].map (fun i => (packagedShares [(7 : Fin 256)] 2 2
        (List.replicate 32 (0 : Fin 256)) (List.replicate 12 (0 : Fin 256))
        (fun p k => mkByte (p + k + 3))).getD i [])) =
      Except.error Err.IntegrityCheckFailed ∨
    from_shares ([0].map (fun i => (packagedShares [(7 : Fin 256)] 2 2
        (List.replicate 32 (0 : Fin 256)) (List.replicate 12 (0 : Fin 256))
        (fun p k => mkByte (p + k + 3))).getD i [])) = Except.ok [(7 : Fin 256)] :=
  C3_under_threshold [(7 : Fin 256)] 2 2 (List.replicate 32 (0 : Fin 256))
    (List.replicate 12 (0 : Fin 256)) (fun p k => mkByte (p + k + 3))
    (packagedShares [(7 : Fin 256)] 2 2 (List.replicate 32 (0 : Fin 256))
      (List.replicate 12 (0 : Fin 256)) (fun p k => mkByte (p + k + 3)))
    [0] (by decide) (by decide) (by decide) (by decide)
    (by intro i hi; simp at hi; omega) (by decide) (by decide) (by rfl)

/-- C1: round trip.  For every byte buffer, all thresholds 1 ≤ t ≤ n ≤ 255
(the Fin 256 parameters carry n ≤ 255), every drawn key, nonce and
coefficient family, and every duplicate-free selection of t of the
produced packaged shares, `from_shares` returns exactly the original
buffer. -/
theorem C1_round_trip (input : List Byte) (t n : Fin 256) (key nonce : List Byte)
    (coeff : Nat → Nat → Byte) (ss : List (List Byte)) (idxs : List Nat)
    (ht : 1 ≤ t.val)
    (hkey : key.length = 32) (hnonce : nonce.length = 12)
    (hlen : input.length + 44 < 2 ^ 64)
    (hnd : idxs.Nodup) (hbound : ∀ i ∈ idxs, i < n.val) (hsize : idxs.length = t.val)
    (h : to_shares input t n key nonce coeff = Except.ok ss) :
    from_shares (idxs.map (fun i => ss.getD i [])) = Except.ok input := by
  have hss := to_shares_ok_inv input t n key nonce coeff ss h
  subst hss
  have hne : idxs ≠ [] := by
    intro hnil
    rw [hnil] at hsize
    simp at hsize
    omega
  rw [from_shares_subset input t n key nonce coeff idxs hkey hnonce hlen hnd hbound hne]
  have hrec85 : (serializeShareInfo (infoRecord input n key nonce)).length = 85 := by
    apply serializeShareInfo_length
    · simp [infoRecord, sha3_256_length]
    · simp [infoRecord, hkey]
    · simp [infoRecord, hnonce]
  have hrecov : recoveredOnSubset input t n key nonce coeff idxs =
      serializeShareInfo (infoRecord input n key nonce) := by
    rw [recoveredOnSubset,
      show (85 : Nat) = (serializeShareInfo (infoRecord input n key nonce)).length
        from hrec85.symm]
    conv_rhs => rw [← map_range_getD (serializeShareInfo (infoRecord input n key nonce)) 0]
    apply List.map_congr_left
    intro p _
    have hbyte := recByte_eq_headD
      ((SecretData.with_secret (serializeShareInfo (infoRecord input n key nonce))
        t coeff).polyAt p)
      (idxs.map (fun i =>
        (GF.ofByte (mkByte (i + 1)),
          hornerEval ((SecretData.with_secret
            (serializeShareInfo (infoRecord input n key nonce)) t coeff).polyAt p)
            (GF.ofByte (mkByte (i + 1))))))
      (by
        simp only [SecretData.polyAt, SecretData.with_secret, List.length_cons,
          List.length_map, List.length_range]
        rw [hsize]
        omega)
      (by
        intro a b hab hcontra
        simp only [List.get_eq_getElem, List.getElem_map] at hcontra
        have ha' : a.val < idxs.length := by
          have := a.isLt
          simpa using this
        have hb' : b.val < idxs.length := by
          have := b.isLt
          simpa using this
        have hv := congrArg (fun g : GF => g.val.val) hcontra
        simp only [GF.ofByte, mkByte] at hv
        have hba := hbound _ (List.getElem_mem ha')
        have hbb := hbound _ (List.getElem_mem hb')
        have hn256 := n.isLt
        have hidx : idxs[a.val] = idxs[b.val] := by omega
        exact hab (Fin.ext ((List.Nodup.getElem_inj_iff hnd).mp hidx))
      )
      (by
        intro a
        simp only [List.get_eq_getElem, List.getElem_map])
    rw [hbyte]
    rfl
  rw [hrecov, finishDecrypt,
    deserializeShareInfo_serialize (infoRecord input n key nonce)
      (by simp [infoRecord, sha3_256_length]) (by simp [infoRecord, hkey])
      (by simp [infoRecord, hnonce]) (by simp only [infoRecord]; omega),
    bind_ok,
    show (infoRecord input n key nonce).key = key from rfl,
    show (infoRecord input n key nonce).nonce = nonce from rfl,
    aeadDecrypt_encrypt hkey hnonce, bind_ok]
  rw [if_neg (fun hc => hc rfl)]

/-- C1 witness: a concrete 2-of-3 split of the buffer [7, 42] with nonzero
drawn coefficients; recovering from the share subset {0, 2} returns the
buffer exactly. -/
theorem C1_witness :
    from_shares (([0, 2] : List Nat).map (fun i =>
        (packagedShares [(7 : Fin 256), 42] 2 3 (List.replicate 32 (0 : Fin 256))
          (List.replicate 12 (0 : Fin 256)) (fun p k => mkByte (p + k + 3))).getD i [])) =
      Except.ok [(7 : Fin 256), 42] :=
  C1_round_trip [(7 : Fin 256), 42] 2 3 (List.replicate 32 (0 : Fin 256))
    (List.replicate 12 (0 : Fin 256)) (fun p k => mkByte (p + k + 3))
    (packagedShares [(7 : Fin 256), 42] 2 3 (List.replicate 32 (0 : Fin 256))
      (List.replicate 12 (0 : Fin 256)) (fun p k => mkByte (p + k + 3)))
    [0, 2] (by decide) (by decide) (by decide) (by decide) (by decide)
    (by decide) (by decide) (by rfl)
